import Mathlib

/-!
Verification of the discopt combinatorial-optimization core.

This file gives a shallow embedding, in Lean 4, of the two algorithmic
subsystems of the repository — the 0/1 knapsack branch-and-bound solver
(`src/knapsack/knapsack.py`, class `Knapsack`) and the greedy /
iterated-greedy graph-coloring heuristics together with the feasibility
checker (`src/coloring/mip.py`) — and proves or refutes the specified
properties of those functions.

Conventions of the embedding:
* Python unbounded integers are `Int`; Python lists are Lean `List`s.
* Python values that may fail an `isinstance(…, int)` check are modelled by
  the sum type `PyVal`.
* Functions that can raise are modelled with `Option`/`Except`: a `none` or
  `.error` result stands for the raised exception.
* The recursive `Knapsack._branch` is embedded with an explicit structural
  argument `rem = n - 1 - i` (the number of undecided items after item `i`);
  the Python code tests `i < n - 1` where the embedding tests `rem ≠ 0`,
  which agrees whenever `rem = n - 1 - i`, as at every call site.
-/

namespace Discopt

/-! ## Knapsack: data and the branch-and-bound search -/

/-- `dot a b` models Python `sum(map(lambda tup: tup[0] * tup[1], zip(a, b)))`
(`Knapsack.objective` with `a` the value vector, and the weight accumulation
of `Knapsack._feasible`).  Like `zip`, it truncates to the shorter list. -/
def dot (a b : List Int) : Int := (List.zipWith (fun p q => p * q) a b).sum

/-- The entries of `t` are decision-variable values: each is 0 or 1. -/
def IsBin (t : List Int) : Prop := ∀ a ∈ t, a = 0 ∨ a = 1

instance (t : List Int) : Decidable (IsBin t) :=
  inferInstanceAs (Decidable (∀ a ∈ t, a = 0 ∨ a = 1))

/-- `Knapsack._branch(t, i, prev_val, prev_weight, best)` from
`src/knapsack/knapsack.py`.  The state it mutates is made explicit:
`t` is the list of decisions taken for items `0 … i` (the Python `t[0:i+1]`;
entries above `i` are `None` there and simply absent here), `x` is the
captured candidate solution `self.x` (`none` while unset), and the pair
returned is `(best, x)` after the call.  `rem` is the structural recursion
fuel `n - 1 - i`; the test `i < n - 1` of the source becomes `rem ≠ 0`. -/
def branch (v w : List Int) (k : Int) :
    Nat → Nat → List Int → Int → Int → Int → Option (List Int) →
    Int × Option (List Int)
  | rem, i, t, pv, pw, best, x =>
    let weight := pw + (w.getD i 0) * (t.getD i 0)
    if k < weight then (best, x)
    else
      let value := pv + (v.getD i 0) * (t.getD i 0)
      let nb := max value best
      match rem with
      | rem' + 1 =>
        let r1 := branch v w k rem' (i+1) (t ++ [0]) value weight nb x
        let nb1 := max r1.1 nb
        let r2 := branch v w k rem' (i+1) (t ++ [1]) value weight nb1 r1.2
        (max r2.1 nb1, r2.2)
      | 0 =>
        if best ≤ value then (nb, some t) else (nb, x)

/-- `Knapsack._fill` from `src/knapsack/knapsack.py`: explore the exclusion
branch `t[0] = 0`, then the inclusion branch `t[0] = 1` threading the best
value through, default `x` to the all-zero vector when no leaf was captured,
and set the `optimal` flag to `objective() == best`.  Returns
`(best, x, optimal)`. -/
def fill (v w : List Int) (k : Int) : Int × List Int × Bool :=
  let n := v.length
  let r1 := branch v w k (n - 1) 0 [0] 0 0 0 none
  let r2 := branch v w k (n - 1) 0 [1] 0 0 r1.1 r1.2
  let x := r2.2.getD (List.replicate n 0)
  (r2.1, x, dot v x == r2.1)

/-- A Python value fed to `Knapsack.__init__`: an `int` or anything else. -/
inductive PyVal where
  | int : Int → PyVal
  | nonInt : PyVal
deriving DecidableEq

/-- Models `isinstance(y, int)`. -/
def PyVal.isInt : PyVal → Bool
  | .int _ => true
  | .nonInt => false

/-- The integer carried by a `PyVal` (only used after the type check). -/
def PyVal.toInt : PyVal → Int
  | .int i => i
  | .nonInt => 0

/-- The exceptions `Knapsack.__init__` can raise. -/
inductive KError where
  | valueError : String → KError
  | typeError : String → KError
  | assertionError : KError
deriving DecidableEq

/-- The state of a fully constructed `Knapsack` object. -/
structure KResult where
  x : List Int
  best : Int
  optimal : Bool
deriving DecidableEq

/-- `Knapsack.__init__(k, v, w)` from `src/knapsack/knapsack.py`: the length
check, the non-empty check, the type check (in that order), then `_fill()`
and the `assert self._feasible()` (weight of the solution within capacity),
whose failure is `.error .assertionError`. -/
def knapsackInit (k : PyVal) (v w : List PyVal) : Except KError KResult :=
  if v.length ≠ w.length then .error (.valueError "ambiguous problem size")
  else if v.length < 1 then .error (.valueError "no items to put in knapsack")
  else if !(k.isInt && (v ++ w).all PyVal.isInt) then
    .error (.typeError "k and all elements of v and w must be ints")
  else if dot (w.map PyVal.toInt)
      (fill (v.map PyVal.toInt) (w.map PyVal.toInt) k.toInt).2.1 ≤ k.toInt then
    .ok ⟨(fill (v.map PyVal.toInt) (w.map PyVal.toInt) k.toInt).2.1,
         (fill (v.map PyVal.toInt) (w.map PyVal.toInt) k.toInt).1,
         (fill (v.map PyVal.toInt) (w.map PyVal.toInt) k.toInt).2.2⟩
  else .error .assertionError

/-! ### Arithmetic toolkit for `dot` -/

theorem dot_nil_right (a : List Int) : dot a [] = 0 := by
  simp [dot]

theorem dot_cons_cons (p q : Int) (a b : List Int) :
    dot (p :: a) (q :: b) = p * q + dot a b := by
  simp [dot]

theorem dot_concat (a : List Int) (b : Int) :
    ∀ l : List Int, l.length < a.length →
      dot a (l ++ [b]) = dot a l + a.getD l.length 0 * b := by
  induction a with
  | nil => intro l h; simp at h
  | cons p a ih =>
    intro l h
    cases l with
    | nil => simp [dot, mul_comm]
    | cons q l' =>
      simp only [List.cons_append, dot_cons_cons, List.length_cons]
      rw [ih l' (by simpa using h)]
      simp [List.getD]
      ring

theorem dot_bin_nonneg :
    ∀ (s a : List Int), (∀ p ∈ a, 0 ≤ p) → IsBin s → 0 ≤ dot a s := by
  intro s
  induction s with
  | nil => intro a _ _; simp [dot_nil_right]
  | cons q s' ihs =>
    intro a ha hs
    cases a with
    | nil => simp [dot]
    | cons p a' =>
      rw [dot_cons_cons]
      have h1 : 0 ≤ p * q := by
        have hp : 0 ≤ p := ha p (by simp)
        rcases hs q (by simp) with h | h <;> simp [h, hp]
      have h2 : (0:Int) ≤ dot a' s' := by
        refine ihs a' (fun r hr => ha r (by simp [hr])) ?_
        intro q' hq'; exact hs q' (by simp [hq'])
      linarith

theorem dot_append_ge (t : List Int) :
    ∀ (a s : List Int), (∀ p ∈ a, 0 ≤ p) → IsBin s →
      dot a t ≤ dot a (t ++ s) := by
  induction t with
  | nil =>
    intro a s ha hs
    simp only [List.nil_append, dot_nil_right]
    exact dot_bin_nonneg s a ha hs
  | cons q t' iht =>
    intro a s ha hs
    cases a with
    | nil => simp [dot]
    | cons p a' =>
      simp only [List.cons_append, dot_cons_cons]
      have := iht a' s (fun r hr => ha r (by simp [hr])) hs
      omega

theorem dot_replicate_zero (a : List Int) : ∀ m, dot a (List.replicate m 0) = 0 := by
  induction a with
  | nil => intro m; simp [dot]
  | cons p a ih =>
    intro m
    cases m with
    | zero => simp [dot]
    | succ m' => simp [List.replicate_succ, dot_cons_cons, ih]

theorem dot_append_zeros (a t : List Int) (m : Nat) :
    dot a (t ++ List.replicate m 0) = dot a t := by
  induction t generalizing a with
  | nil => simp [dot_replicate_zero, dot_nil_right]
  | cons q t' iht =>
    cases a with
    | nil => simp [dot]
    | cons p a' => simp [dot_cons_cons, iht]

theorem dot_eval (a t : List Int) (i : Nat) (ht : t.length = i + 1)
    (hi : i < a.length) :
    dot a t.dropLast + a.getD i 0 * t.getD i 0 = dot a t := by
  have hne : t ≠ [] := by intro h; simp [h] at ht
  have h1 : t.dropLast ++ [t.getLast hne] = t := List.dropLast_append_getLast hne
  have hlen : t.dropLast.length = i := by simp [List.length_dropLast, ht]
  have h2 : t.getD i 0 = t.getLast hne := by
    conv_lhs => rw [← h1]
    rw [← hlen, List.getD_append_right t.dropLast [t.getLast hne] 0
      t.dropLast.length (le_refl _)]
    simp
  have h3 := dot_concat a (t.getLast hne) t.dropLast (by omega)
  rw [h1] at h3
  rw [h3, hlen, h2]

theorem branch_zero_eq (v w : List Int) (k : Int) (i : Nat) (t : List Int)
    (pv pw best : Int) (x : Option (List Int)) :
    branch v w k 0 i t pv pw best x =
      if k < pw + (w.getD i 0) * (t.getD i 0) then (best, x)
      else if best ≤ pv + (v.getD i 0) * (t.getD i 0) then
        (max (pv + (v.getD i 0) * (t.getD i 0)) best, some t)
      else (max (pv + (v.getD i 0) * (t.getD i 0)) best, x) := rfl

theorem branch_succ_eq (v w : List Int) (k : Int) (rem' i : Nat) (t : List Int)
    (pv pw best : Int) (x : Option (List Int)) :
    branch v w k (rem' + 1) i t pv pw best x =
      if k < pw + (w.getD i 0) * (t.getD i 0) then (best, x)
      else
        (max (branch v w k rem' (i+1) (t ++ [1])
            (pv + (v.getD i 0) * (t.getD i 0)) (pw + (w.getD i 0) * (t.getD i 0))
            (max (branch v w k rem' (i+1) (t ++ [0])
              (pv + (v.getD i 0) * (t.getD i 0)) (pw + (w.getD i 0) * (t.getD i 0))
              (max (pv + (v.getD i 0) * (t.getD i 0)) best) x).1
             (max (pv + (v.getD i 0) * (t.getD i 0)) best))
            (branch v w k rem' (i+1) (t ++ [0])
              (pv + (v.getD i 0) * (t.getD i 0)) (pw + (w.getD i 0) * (t.getD i 0))
              (max (pv + (v.getD i 0) * (t.getD i 0)) best) x).2).1
          (max (branch v w k rem' (i+1) (t ++ [0])
              (pv + (v.getD i 0) * (t.getD i 0)) (pw + (w.getD i 0) * (t.getD i 0))
              (max (pv + (v.getD i 0) * (t.getD i 0)) best) x).1
            (max (pv + (v.getD i 0) * (t.getD i 0)) best)),
         (branch v w k rem' (i+1) (t ++ [1])
            (pv + (v.getD i 0) * (t.getD i 0)) (pw + (w.getD i 0) * (t.getD i 0))
            (max (branch v w k rem' (i+1) (t ++ [0])
              (pv + (v.getD i 0) * (t.getD i 0)) (pw + (w.getD i 0) * (t.getD i 0))
              (max (pv + (v.getD i 0) * (t.getD i 0)) best) x).1
             (max (pv + (v.getD i 0) * (t.getD i 0)) best))
            (branch v w k rem' (i+1) (t ++ [0])
              (pv + (v.getD i 0) * (t.getD i 0)) (pw + (w.getD i 0) * (t.getD i 0))
              (max (pv + (v.getD i 0) * (t.getD i 0)) best) x).2).2) := rfl

/-- `u` is a full-length binary extension of the decision prefix `t`. -/
def Ext (n : Nat) (t u : List Int) : Prop :=
  ∃ s, u = t ++ s ∧ IsBin s ∧ u.length = n

/-- `u` is a feasible full assignment whose objective value is at most `b`. -/
def OkV (v w : List Int) (k : Int) (u : List Int) (b : Int) : Prop :=
  u.length = v.length ∧ IsBin u ∧ dot w u ≤ k ∧ dot v u ≤ b

/-- `u` is a feasible full assignment whose objective value is exactly `b`. -/
def GoodV (v w : List Int) (k : Int) (u : List Int) (b : Int) : Prop :=
  u.length = v.length ∧ IsBin u ∧ dot w u ≤ k ∧ dot v u = b

theorem GoodV.okV {v w k u b} (h : GoodV v w k u b) : OkV v w k u b :=
  ⟨h.1, h.2.1, h.2.2.1, le_of_eq h.2.2.2⟩

theorem OkV.mono {v w k u b b'} (h : OkV v w k u b) (hb : b ≤ b') :
    OkV v w k u b' :=
  ⟨h.1, h.2.1, h.2.2.1, le_trans h.2.2.2 hb⟩

/-- Upper-bound invariant of `Knapsack._branch` for non-negative weights:
the returned best value dominates the incoming best value and the objective
value of every feasible binary completion of the current decision prefix. -/
theorem branch_ub (v w : List Int) (k : Int) (hw : ∀ p ∈ w, 0 ≤ p)
    (hlen : v.length = w.length) :
    ∀ (rem i : Nat) (t : List Int) (pv pw best : Int) (x : Option (List Int)),
      t.length = i + 1 → i + 1 + rem = v.length → IsBin t →
      pv = dot v t.dropLast → pw = dot w t.dropLast →
      best ≤ (branch v w k rem i t pv pw best x).1 ∧
      (∀ u, Ext v.length t u → dot w u ≤ k →
        dot v u ≤ (branch v w k rem i t pv pw best x).1) := by
  intro rem
  induction rem with
  | zero =>
    intro i t pv pw best x ht hn hbin hpv hpw
    have hiv : i < v.length := by omega
    have hiw : i < w.length := by omega
    have hV : pv + v.getD i 0 * t.getD i 0 = dot v t := by
      rw [hpv]; exact dot_eval v t i ht hiv
    have hW : pw + w.getD i 0 * t.getD i 0 = dot w t := by
      rw [hpw]; exact dot_eval w t i ht hiw
    rw [branch_zero_eq, hV, hW]
    by_cases hprune : k < dot w t
    · simp only [if_pos hprune]
      refine ⟨le_refl _, fun u hu hfu => absurd hfu ?_⟩
      obtain ⟨s, rfl, hsbin, _⟩ := hu
      have := dot_append_ge t w s (fun p hp => hw p hp) hsbin
      omega
    · simp only [if_neg hprune]
      constructor
      · split <;> simp
      · intro u hu _
        obtain ⟨s, rfl, hsbin, hulen⟩ := hu
        have hs : s = [] := by
          have := List.length_append t s
          rw [hulen] at this
          have : s.length = 0 := by omega
          exact List.length_eq_zero.mp this
        subst hs
        split <;> simp [List.append_nil]
  | succ rem' ih =>
    intro i t pv pw best x ht hn hbin hpv hpw
    have hiv : i < v.length := by omega
    have hiw : i < w.length := by omega
    have hV : pv + v.getD i 0 * t.getD i 0 = dot v t := by
      rw [hpv]; exact dot_eval v t i ht hiv
    have hW : pw + w.getD i 0 * t.getD i 0 = dot w t := by
      rw [hpw]; exact dot_eval w t i ht hiw
    rw [branch_succ_eq, hV, hW]
    by_cases hprune : k < dot w t
    · simp only [if_pos hprune]
      refine ⟨le_refl _, fun u hu hfu => absurd hfu ?_⟩
      obtain ⟨s, rfl, hsbin, _⟩ := hu
      have := dot_append_ge t w s (fun p hp => hw p hp) hsbin
      omega
    · simp only [if_neg hprune]
      have ht0 : (t ++ [(0:Int)]).length = (i + 1) + 1 := by simp [ht]
      have ht1 : (t ++ [(1:Int)]).length = (i + 1) + 1 := by simp [ht]
      have hdl0 : (t ++ [(0:Int)]).dropLast = t := List.dropLast_concat
      have hdl1 : (t ++ [(1:Int)]).dropLast = t := List.dropLast_concat
      have hbin0 : IsBin (t ++ [(0:Int)]) := by
        intro a ha; rcases List.mem_append.mp ha with h | h
        · exact hbin a h
        · left; simpa using h
      have hbin1 : IsBin (t ++ [(1:Int)]) := by
        intro a ha; rcases List.mem_append.mp ha with h | h
        · exact hbin a h
        · right; simpa using h
      have ih1 := ih (i+1) (t ++ [0]) (dot v t) (dot w t) (max (dot v t) best) x
        ht0 (by omega) hbin0 (by rw [hdl0]) (by rw [hdl0])
      set r1 := branch v w k rem' (i+1) (t ++ [0]) (dot v t) (dot w t)
        (max (dot v t) best) x with hr1
      have ih2 := ih (i+1) (t ++ [1]) (dot v t) (dot w t)
        (max r1.1 (max (dot v t) best)) r1.2
        ht1 (by omega) hbin1 (by rw [hdl1]) (by rw [hdl1])
      set r2 := branch v w k rem' (i+1) (t ++ [1]) (dot v t) (dot w t)
        (max r1.1 (max (dot v t) best)) r1.2 with hr2
      constructor
      · exact le_trans (le_max_right (dot v t) best)
          (le_trans (le_max_right r1.1 _) (le_max_right r2.1 _))
      · intro u hu hfu
        obtain ⟨s, rfl, hsbin, hulen⟩ := hu
        have hsne : s ≠ [] := by
          intro h
          subst h
          simp only [List.append_nil] at hulen
          omega
        obtain ⟨b, s', rfl⟩ := List.exists_cons_of_ne_nil hsne
        have hb : b = 0 ∨ b = 1 := hsbin b (by simp)
        have hs'bin : IsBin s' := fun a ha => hsbin a (by simp [ha])
        have hassoc : t ++ b :: s' = (t ++ [b]) ++ s' := by simp
        rcases hb with rfl | rfl
        · have hle := ih1.2 (t ++ 0 :: s')
            ⟨s', by simp, hs'bin, hulen⟩ hfu
          exact le_trans hle (le_trans (le_max_left r1.1 _) (le_max_right r2.1 _))
        · have hle := ih2.2 (t ++ 1 :: s')
            ⟨s', by simp, hs'bin, hulen⟩ hfu
          exact le_trans hle (le_max_left r2.1 _)

/-- Capture invariant of `Knapsack._branch` (no sign assumption on the data):
the returned best value dominates the incoming one; if every captured `x` is
feasible with objective value at most `best`, then after the call either the
captured solution is feasible with objective value exactly the returned best,
or the call changed nothing; and starting from a captured optimum or from a
feasible prefix whose value reaches `best`, the call always ends with a
captured solution whose value is exactly the returned best. -/
theorem branch_cap (v w : List Int) (k : Int) (hlen : v.length = w.length) :
    ∀ (rem i : Nat) (t : List Int) (pv pw best : Int) (x : Option (List Int)),
      t.length = i + 1 → i + 1 + rem = v.length → IsBin t →
      pv = dot v t.dropLast → pw = dot w t.dropLast →
      best ≤ (branch v w k rem i t pv pw best x).1 ∧
      ((∀ u₀, x = some u₀ → OkV v w k u₀ best) →
        ((∃ u, (branch v w k rem i t pv pw best x).2 = some u ∧
            GoodV v w k u (branch v w k rem i t pv pw best x).1) ∨
          ((branch v w k rem i t pv pw best x).2 = x ∧
            (branch v w k rem i t pv pw best x).1 = best)) ∧
        (((∃ u₀, x = some u₀ ∧ GoodV v w k u₀ best) ∨
            (dot w t ≤ k ∧ best ≤ dot v t)) →
          ∃ u, (branch v w k rem i t pv pw best x).2 = some u ∧
            GoodV v w k u (branch v w k rem i t pv pw best x).1)) := by
  intro rem
  induction rem with
  | zero =>
    intro i t pv pw best x ht hn hbin hpv hpw
    have hiv : i < v.length := by omega
    have hiw : i < w.length := by omega
    have hV : pv + v.getD i 0 * t.getD i 0 = dot v t := by
      rw [hpv]; exact dot_eval v t i ht hiv
    have hW : pw + w.getD i 0 * t.getD i 0 = dot w t := by
      rw [hpw]; exact dot_eval w t i ht hiw
    rw [branch_zero_eq, hV, hW]
    by_cases hprune : k < dot w t
    · simp only [if_pos hprune]
      refine ⟨le_refl _, fun _ => ⟨Or.inr ⟨trivial, trivial⟩, fun hd => ?_⟩⟩
      rcases hd with ⟨u₀, hx, hgood⟩ | ⟨hwk, _⟩
      · exact ⟨u₀, hx, hgood⟩
      · omega
    · simp only [if_neg hprune]
      by_cases hcap : best ≤ dot v t
      · simp only [if_pos hcap]
        have hmax : max (dot v t) best = dot v t := max_eq_left hcap
        have hgoodt : GoodV v w k t (max (dot v t) best) :=
          ⟨by omega, hbin, by omega, hmax.symm ▸ rfl⟩
        exact ⟨le_max_right _ _, fun _ =>
          ⟨Or.inl ⟨t, rfl, hgoodt⟩, fun _ => ⟨t, rfl, hgoodt⟩⟩⟩
      · simp only [if_neg hcap]
        have hmax : max (dot v t) best = best :=
          max_eq_right (le_of_lt (lt_of_not_le hcap))
        refine ⟨le_max_right _ _, fun _ => ⟨Or.inr ⟨trivial, hmax⟩, fun hd => ?_⟩⟩
        rcases hd with ⟨u₀, hx, hgood⟩ | ⟨_, hbv⟩
        · exact ⟨u₀, hx, by rw [hmax]; exact hgood⟩
        · exact absurd hbv hcap
  | succ rem' ih =>
    intro i t pv pw best x ht hn hbin hpv hpw
    have hiv : i < v.length := by omega
    have hiw : i < w.length := by omega
    have hV : pv + v.getD i 0 * t.getD i 0 = dot v t := by
      rw [hpv]; exact dot_eval v t i ht hiv
    have hW : pw + w.getD i 0 * t.getD i 0 = dot w t := by
      rw [hpw]; exact dot_eval w t i ht hiw
    rw [branch_succ_eq, hV, hW]
    by_cases hprune : k < dot w t
    · simp only [if_pos hprune]
      refine ⟨le_refl _, fun _ => ⟨Or.inr ⟨trivial, trivial⟩, fun hd => ?_⟩⟩
      rcases hd with ⟨u₀, hx, hgood⟩ | ⟨hwk, _⟩
      · exact ⟨u₀, hx, hgood⟩
      · omega
    · simp only [if_neg hprune]
      have ht0 : (t ++ [(0:Int)]).length = (i + 1) + 1 := by simp [ht]
      have ht1 : (t ++ [(1:Int)]).length = (i + 1) + 1 := by simp [ht]
      have hdl0 : (t ++ [(0:Int)]).dropLast = t := List.dropLast_concat
      have hdl1 : (t ++ [(1:Int)]).dropLast = t := List.dropLast_concat
      have hbin0 : IsBin (t ++ [(0:Int)]) := by
        intro a ha; rcases List.mem_append.mp ha with h | h
        · exact hbin a h
        · left; simpa using h
      have hbin1 : IsBin (t ++ [(1:Int)]) := by
        intro a ha; rcases List.mem_append.mp ha with h | h
        · exact hbin a h
        · right; simpa using h
      have e0w : dot w (t ++ [0]) = dot w t := by
        rw [dot_concat w 0 t (by omega)]; ring
      have e0v : dot v (t ++ [0]) = dot v t := by
        rw [dot_concat v 0 t (by omega)]; ring
      have ihA := ih (i+1) (t ++ [0]) (dot v t) (dot w t) (max (dot v t) best) x
        ht0 (by omega) hbin0 (by rw [hdl0]) (by rw [hdl0])
      set r1 := branch v w k rem' (i+1) (t ++ [0]) (dot v t) (dot w t)
        (max (dot v t) best) x with hr1
      have ihB := ih (i+1) (t ++ [1]) (dot v t) (dot w t)
        (max r1.1 (max (dot v t) best)) r1.2
        ht1 (by omega) hbin1 (by rw [hdl1]) (by rw [hdl1])
      set r2 := branch v w k rem' (i+1) (t ++ [1]) (dot v t) (dot w t)
        (max r1.1 (max (dot v t) best)) r1.2 with hr2
      have hC01 : max (dot v t) best ≤ r1.1 := ihA.1
      have hC02 : max r1.1 (max (dot v t) best) ≤ r2.1 := ihB.1
      have hR1 : max r2.1 (max r1.1 (max (dot v t) best)) = r2.1 :=
        max_eq_left hC02
      constructor
      · exact le_trans (le_max_right (dot v t) best)
          (le_trans (le_max_right r1.1 _) (le_max_right r2.1 _))
      intro pre
      have pre1 : ∀ u₀, x = some u₀ → OkV v w k u₀ (max (dot v t) best) :=
        fun u₀ h => (pre u₀ h).mono (le_max_right _ _)
      have hcap1 := ihA.2 pre1
      have pre2 : ∀ u₁, r1.2 = some u₁ →
          OkV v w k u₁ (max r1.1 (max (dot v t) best)) := by
        intro u₁ h
        rcases hcap1.1 with ⟨u, hu, good⟩ | ⟨hx2, hb2⟩
        · rw [hu] at h
          exact (Option.some_inj.mp h ▸ good.okV).mono (le_max_left _ _)
        · rw [hx2] at h
          exact (pre u₁ h).mono
            (le_trans (le_max_right (dot v t) best) (le_max_right r1.1 _))
      have hcap2 := ihB.2 pre2
      have strong1to2 :
          (∃ u, r1.2 = some u ∧ GoodV v w k u r1.1) →
          ∃ u, r2.2 = some u ∧ GoodV v w k u r2.1 := by
        rintro ⟨u1, hu1, good1⟩
        refine hcap2.2 (Or.inl ⟨u1, hu1, ?_⟩)
        have : max r1.1 (max (dot v t) best) = r1.1 := max_eq_left hC01
        rw [this]
        exact good1
      by_cases hcapv : best ≤ dot v t
      · have hnb : max (dot v t) best = dot v t := max_eq_left hcapv
        have hstr1 : ∃ u, r1.2 = some u ∧ GoodV v w k u r1.1 := by
          refine hcap1.2 (Or.inr ⟨?_, ?_⟩)
          · rw [e0w]; omega
          · rw [e0v, hnb]
        obtain ⟨u2, hu2, good2⟩ := strong1to2 hstr1
        refine ⟨Or.inl ⟨u2, hu2, ?_⟩, fun _ => ⟨u2, hu2, ?_⟩⟩
        · rw [hR1]; exact good2
        · rw [hR1]; exact good2
      · have hnb : max (dot v t) best = best :=
          max_eq_right (le_of_lt (lt_of_not_le hcapv))
        constructor
        · rcases hcap1.1 with ⟨u1, hu1, good1⟩ | ⟨hx1, hb1⟩
          · obtain ⟨u2, hu2, good2⟩ := strong1to2 ⟨u1, hu1, good1⟩
            exact Or.inl ⟨u2, hu2, by rw [hR1]; exact good2⟩
          · rcases hcap2.1 with ⟨u2, hu2, good2⟩ | ⟨hx2, hb2⟩
            · exact Or.inl ⟨u2, hu2, by rw [hR1]; exact good2⟩
            · refine Or.inr ⟨?_, ?_⟩
              · show r2.2 = x
                rw [hx2, hx1]
              · show max r2.1 (max r1.1 (max (dot v t) best)) = best
                rw [hb2, hb1, hnb]
                simp
        · intro hd
          have hdA : ∃ u₀, x = some u₀ ∧ GoodV v w k u₀ best := by
            rcases hd with h | ⟨_, hbv⟩
            · exact h
            · exact absurd hbv hcapv
          obtain ⟨u₀, hx0, good0⟩ := hdA
          have hstr1 : ∃ u, r1.2 = some u ∧ GoodV v w k u r1.1 := by
            refine hcap1.2 (Or.inl ⟨u₀, hx0, ?_⟩)
            rw [hnb]
            exact good0
          obtain ⟨u2, hu2, good2⟩ := strong1to2 hstr1
          exact ⟨u2, hu2, by rw [hR1]; exact good2⟩

theorem dot_singleton_zero (a : List Int) (ha : 0 < a.length) :
    dot a [0] = 0 := by
  have := dot_concat a 0 [] (by simpa using ha)
  simpa [dot_nil_right] using this

/-- After `Knapsack._fill`, the captured solution (or its all-zero default)
always has objective value equal to the returned best value, so the
`optimal` flag is set to `True` whenever `_fill` finishes. -/
theorem fill_optimal (v w : List Int) (k : Int)
    (hlen : v.length = w.length) (hn : 1 ≤ v.length) :
    (fill v w k).2.2 = true := by
  have hcapA := branch_cap v w k hlen (v.length - 1) 0 [0] 0 0 0 none
    (by simp) (by omega) (by decide)
    (by simp [dot_nil_right]) (by simp [dot_nil_right])
  set r1 := branch v w k (v.length - 1) 0 [0] 0 0 0 none with hr1
  have ceq1 := (hcapA.2 (fun u₀ h => Option.noConfusion h)).1
  have hcapB := branch_cap v w k hlen (v.length - 1) 0 [1] 0 0 r1.1 r1.2
    (by simp) (by omega) (by decide)
    (by simp [dot_nil_right]) (by simp [dot_nil_right])
  set r2 := branch v w k (v.length - 1) 0 [1] 0 0 r1.1 r1.2 with hr2
  have pre2 : ∀ u₀, r1.2 = some u₀ → OkV v w k u₀ r1.1 := by
    intro u₀ h
    rcases ceq1 with ⟨u, hu, good⟩ | ⟨hx1, _⟩
    · rw [hu] at h
      exact Option.some_inj.mp h ▸ good.okV
    · rw [hx1] at h
      exact Option.noConfusion h
  have ceq2 := (hcapB.2 pre2).1
  have hfill : (fill v w k).2.2 =
      (dot v (r2.2.getD (List.replicate v.length 0)) == r2.1) := rfl
  rcases ceq2 with ⟨u2, hu2, good2⟩ | ⟨hx2, hb2⟩
  · rw [hfill, hu2]
    simp [good2.2.2.2]
  · rcases ceq1 with ⟨u1, hu1, good1⟩ | ⟨hx1, hb1⟩
    · rw [hfill, hx2, hu1]
      simp [good1.2.2.2, hb2]
    · rw [hfill, hx2, hx1, hb2, hb1]
      simp [dot_replicate_zero]

/-- For non-negative weights and non-negative capacity, `Knapsack._fill`
produces a feasible binary assignment maximizing the objective, and sets the
`optimal` flag.  (This is the branch-and-bound correctness statement, with
the side conditions that make the weight-pruning rule sound.) -/
theorem fill_maximizes (v w : List Int) (k : Int)
    (hlen : v.length = w.length) (hn : 1 ≤ v.length) (hk : 0 ≤ k)
    (hw : ∀ p ∈ w, 0 ≤ p) :
    (fill v w k).2.1.length = v.length ∧ IsBin (fill v w k).2.1 ∧
    dot w (fill v w k).2.1 ≤ k ∧ dot v (fill v w k).2.1 = (fill v w k).1 ∧
    (fill v w k).2.2 = true ∧
    (∀ y, y.length = v.length → IsBin y → dot w y ≤ k →
      dot v y ≤ dot v (fill v w k).2.1) := by
  have h0w : dot w [(0:Int)] = 0 := dot_singleton_zero w (by omega)
  have h0v : dot v [(0:Int)] = 0 := dot_singleton_zero v (by omega)
  have hcapA := branch_cap v w k hlen (v.length - 1) 0 [0] 0 0 0 none
    (by simp) (by omega) (by decide)
    (by simp [dot_nil_right]) (by simp [dot_nil_right])
  have hubA := branch_ub v w k hw hlen (v.length - 1) 0 [0] 0 0 0 none
    (by simp) (by omega) (by decide)
    (by simp [dot_nil_right]) (by simp [dot_nil_right])
  set r1 := branch v w k (v.length - 1) 0 [0] 0 0 0 none with hr1
  have hstr1 := (hcapA.2 (fun u₀ h => Option.noConfusion h)).2
    (Or.inr ⟨by rw [h0w]; exact hk, by rw [h0v]⟩)
  obtain ⟨u1, hu1, good1⟩ := hstr1
  have hcapB := branch_cap v w k hlen (v.length - 1) 0 [1] 0 0 r1.1 r1.2
    (by simp) (by omega) (by decide)
    (by simp [dot_nil_right]) (by simp [dot_nil_right])
  have hubB := branch_ub v w k hw hlen (v.length - 1) 0 [1] 0 0 r1.1 r1.2
    (by simp) (by omega) (by decide)
    (by simp [dot_nil_right]) (by simp [dot_nil_right])
  set r2 := branch v w k (v.length - 1) 0 [1] 0 0 r1.1 r1.2 with hr2
  have pre2 : ∀ u₀, r1.2 = some u₀ → OkV v w k u₀ r1.1 := by
    intro u₀ h
    rw [hu1] at h
    exact Option.some_inj.mp h ▸ good1.okV
  have hstr2 := (hcapB.2 pre2).2 (Or.inl ⟨u1, hu1, good1⟩)
  obtain ⟨u2, hu2, good2⟩ := hstr2
  have hxeq : (fill v w k).2.1 = u2 := by
    show r2.2.getD (List.replicate v.length 0) = u2
    rw [hu2]
    rfl
  have hbeq : (fill v w k).1 = r2.1 := rfl
  refine ⟨by rw [hxeq]; exact good2.1, by rw [hxeq]; exact good2.2.1,
    by rw [hxeq]; exact good2.2.2.1, by rw [hxeq, hbeq]; exact good2.2.2.2,
    fill_optimal v w k hlen hn, ?_⟩
  intro y hylen hybin hyfeas
  have hyne : y ≠ [] := by
    intro h
    rw [h] at hylen
    simp at hylen
    omega
  obtain ⟨b, y', rfl⟩ := List.exists_cons_of_ne_nil hyne
  have hy'bin : IsBin y' := fun a ha => hybin a (by simp [ha])
  have hy'len : (b :: y').length = v.length := hylen
  rcases hybin b (by simp) with rfl | rfl
  · have hext : Ext v.length [0] (0 :: y') := ⟨y', by simp, hy'bin, hy'len⟩
    have := hubA.2 (0 :: y') hext hyfeas
    have h12 : r1.1 ≤ r2.1 := hubB.1
    rw [hxeq, good2.2.2.2]
    omega
  · have hext : Ext v.length [1] (1 :: y') := ⟨y', by simp, hy'bin, hy'len⟩
    have := hubB.2 (1 :: y') hext hyfeas
    rw [hxeq, good2.2.2.2]
    omega

/-! ### Claim theorems: knapsack -/

/-- Claim C1, counterexample.  As stated — quantifying over arbitrary integer
weight vectors — the claim is false: for k = 0, v = [1, 10], w = [1, -1] the
search returns the assignment [0, 1] with objective 10, yet [1, 1] is a
feasible binary assignment (weight 1 + (-1) = 0 ≤ 0) of objective 11.  The
`weight > k` pruning rule cuts the branch `t = [1]` although a negative
weight later restores feasibility. -/
theorem C1_knapsack_negative_weight_counterexample :
    (fill [1, 10] [1, -1] 0).2.1 = [0, 1] ∧
    dot [1, 10] (fill [1, 10] [1, -1] 0).2.1 = 10 ∧
    IsBin [1, 1] ∧ ([1, 1] : List Int).length = ([1, 10] : List Int).length ∧
    dot [1, -1] [1, 1] ≤ 0 ∧ dot [1, 10] [1, 1] = 11 ∧
    ¬ dot [1, 10] [1, 1] ≤ dot [1, 10] (fill [1, 10] [1, -1] 0).2.1 := by
  decide

/-- Claim C1, amended: for every knapsack instance with integer capacity
k ≥ 0 and equal-length non-empty integer value/weight vectors whose weights
are non-negative, the branch-and-bound search produces a binary assignment
that is feasible and whose objective value is the maximum over all feasible
binary assignments, with the `optimal` flag set. -/
theorem C1_knapsack_branch_bound_maximizes (v w : List Int) (k : Int)
    (hlen : v.length = w.length) (hn : 1 ≤ v.length) (hk : 0 ≤ k)
    (hw : ∀ p ∈ w, 0 ≤ p) :
    (fill v w k).2.1.length = v.length ∧ IsBin (fill v w k).2.1 ∧
    dot w (fill v w k).2.1 ≤ k ∧ (fill v w k).2.2 = true ∧
    (∀ y, y.length = v.length → IsBin y → dot w y ≤ k →
      dot v y ≤ dot v (fill v w k).2.1) := by
  obtain ⟨h1, h2, h3, _, h5, h6⟩ := fill_maximizes v w k hlen hn hk hw
  exact ⟨h1, h2, h3, h5, h6⟩

/-- Claim C1, witness at the spec scenario n = 3, k = 50, v = [60, 100, 120],
w = [10, 20, 30]: objective 220, x = [0, 1, 1], optimal flag set. -/
theorem C1_knapsack_branch_bound_maximizes_witness :
    ((fill [60, 100, 120] [10, 20, 30] 50) = (220, [0, 1, 1], true) ∧
      dot [60, 100, 120] (fill [60, 100, 120] [10, 20, 30] 50).2.1 = 220) ∧
    ((fill [60, 100, 120] [10, 20, 30] 50).2.1.length = 3 ∧
      IsBin (fill [60, 100, 120] [10, 20, 30] 50).2.1 ∧
      dot [10, 20, 30] (fill [60, 100, 120] [10, 20, 30] 50).2.1 ≤ 50 ∧
      (fill [60, 100, 120] [10, 20, 30] 50).2.2 = true ∧
      (∀ y, y.length = 3 → IsBin y → dot [10, 20, 30] y ≤ 50 →
        dot [60, 100, 120] y ≤ dot [60, 100, 120]
          (fill [60, 100, 120] [10, 20, 30] 50).2.1)) :=
  ⟨by decide, C1_knapsack_branch_bound_maximizes [60, 100, 120] [10, 20, 30] 50
    (by decide) (by decide) (by decide) (by decide)⟩

/-- Claim C6: whenever `Knapsack.__init__` completes without raising — in
particular the final `assert self._feasible()` passes — the `optimal` flag
of the constructed object is `True`.  (In fact `_fill` always ends with
`self.objective() == best`, whatever the signs of the data.) -/
theorem C6_knapsack_optimal_flag (k : PyVal) (v w : List PyVal) (r : KResult)
    (h : knapsackInit k v w = .ok r) : r.optimal = true := by
  unfold knapsackInit at h
  by_cases h1 : v.length ≠ w.length
  · rw [if_pos h1] at h
    exact Except.noConfusion h
  rw [if_neg h1] at h
  by_cases h2 : v.length < 1
  · rw [if_pos h2] at h
    exact Except.noConfusion h
  rw [if_neg h2] at h
  by_cases h3 : ((!(k.isInt && (v ++ w).all PyVal.isInt)) = true)
  · rw [if_pos h3] at h
    exact Except.noConfusion h
  rw [if_neg h3] at h
  by_cases h4 : dot (w.map PyVal.toInt) (fill (v.map PyVal.toInt)
      (w.map PyVal.toInt) k.toInt).2.1 ≤ k.toInt
  · rw [if_pos h4] at h
    have hr := Except.ok.inj h
    subst hr
    exact fill_optimal (v.map PyVal.toInt) (w.map PyVal.toInt) k.toInt
      (by simp only [List.length_map]; omega) (by simp only [List.length_map]; omega)
  · rw [if_neg h4] at h
    exact Except.noConfusion h

/-- Claim C6, witness: the scenario instance constructs successfully and its
`optimal` flag is `True`. -/
theorem C6_knapsack_optimal_flag_witness :
    (⟨[0, 1, 1], 220, true⟩ : KResult).optimal = true :=
  C6_knapsack_optimal_flag (.int 50) [.int 60, .int 100, .int 120]
    [.int 10, .int 20, .int 30] ⟨[0, 1, 1], 220, true⟩ (by rfl)

/-- Claim C9: `Knapsack.__init__` input validation.  (1) Mismatched lengths
raise the "ambiguous problem size" ValueError, whatever the element types;
(2) with matching lengths an empty item set raises the "no items" ValueError,
still before any type check; (3) with matching non-zero lengths, a
non-integer k or element raises the TypeError; (4) an integer k with
equal-length non-empty all-integer vectors raises no validation error: the
construction either completes or fails only the final feasibility
assertion. -/
theorem C9_knapsack_input_validation :
    (∀ (k : PyVal) (v w : List PyVal), v.length ≠ w.length →
      knapsackInit k v w = .error (.valueError "ambiguous problem size")) ∧
    (∀ (k : PyVal) (v w : List PyVal), v.length = w.length → v.length < 1 →
      knapsackInit k v w = .error (.valueError "no items to put in knapsack")) ∧
    (∀ (k : PyVal) (v w : List PyVal), v.length = w.length → 1 ≤ v.length →
      ¬(k.isInt = true ∧ ∀ p ∈ v ++ w, p.isInt = true) →
      knapsackInit k v w =
        .error (.typeError "k and all elements of v and w must be ints")) ∧
    (∀ (k : Int) (v w : List Int), v.length = w.length → 1 ≤ v.length →
      (∃ r, knapsackInit (.int k) (v.map .int) (w.map .int) = .ok r) ∨
        knapsackInit (.int k) (v.map .int) (w.map .int) =
          .error .assertionError) := by
  refine ⟨fun k v w h => ?_, fun k v w h1 h2 => ?_, fun k v w h1 h2 h3 => ?_,
    fun k v w h1 h2 => ?_⟩
  · unfold knapsackInit
    rw [if_pos h]
  · unfold knapsackInit
    rw [if_neg (by omega), if_pos h2]
  · have hfalse : (k.isInt && (v ++ w).all PyVal.isInt) = false := by
      rw [Bool.eq_false_iff]
      intro htrue
      rw [Bool.and_eq_true] at htrue
      exact h3 ⟨htrue.1, List.all_eq_true.mp htrue.2⟩
    have hcond : (!(k.isInt && (v ++ w).all PyVal.isInt)) = true := by
      rw [hfalse]
      rfl
    unfold knapsackInit
    rw [if_neg (by omega), if_neg (by omega), if_pos hcond]
  · have hA : ¬((v.map PyVal.int).length ≠ (w.map PyVal.int).length) := by
      simp only [List.length_map]
      omega
    have hB : ¬((v.map PyVal.int).length < 1) := by
      simp only [List.length_map]
      omega
    have hall : ((v.map PyVal.int ++ w.map PyVal.int).all PyVal.isInt) = true := by
      rw [List.all_eq_true]
      intro p hp
      rcases List.mem_append.mp hp with h | h <;>
        · obtain ⟨q, _, rfl⟩ := List.mem_map.mp h
          rfl
    unfold knapsackInit
    rw [if_neg hA, if_neg hB, if_neg (by simp [hall, PyVal.isInt])]
    by_cases hcond : dot ((w.map PyVal.int).map PyVal.toInt)
        (fill ((v.map PyVal.int).map PyVal.toInt) ((w.map PyVal.int).map PyVal.toInt)
          (PyVal.int k).toInt).2.1 ≤ (PyVal.int k).toInt
    · rw [if_pos hcond]
      exact Or.inl ⟨_, rfl⟩
    · rw [if_neg hcond]
      exact Or.inr rfl

/-- Claim C9, witness: one closed instance of each validation behaviour. -/
theorem C9_knapsack_input_validation_witness :
    knapsackInit (.int 0) [.int 1] [] =
      .error (.valueError "ambiguous problem size") ∧
    knapsackInit .nonInt [] [] =
      .error (.valueError "no items to put in knapsack") ∧
    knapsackInit .nonInt [.int 1] [.int 2] =
      .error (.typeError "k and all elements of v and w must be ints") ∧
    ((∃ r, knapsackInit (.int 5) [.int 3] [.int 2] = .ok r) ∨
      knapsackInit (.int 5) [.int 3] [.int 2] = .error .assertionError) :=
  ⟨C9_knapsack_input_validation.1 (.int 0) [.int 1] [] (by decide),
   C9_knapsack_input_validation.2.1 .nonInt [] [] (by decide) (by decide),
   C9_knapsack_input_validation.2.2.1 .nonInt [.int 1] [.int 2]
     (by decide) (by decide) (by decide),
   C9_knapsack_input_validation.2.2.2 5 [3] [2] (by decide) (by decide)⟩

/-! ## Graph coloring (`src/coloring/mip.py`) -/

/-- The graph collaborator interface used by the coloring code: node set
`{0, …, N-1}`, per-node neighbor iteration (`graph[node]`).  Iterating the
graph itself yields the nodes `0, …, N-1` in order (`len(graph) = N`). -/
structure Graph where
  N : Nat
  adj : Nat → List Nat

/-- The data-model invariants of the external graph collaborator: neighbors
are in range, no node neighbors itself, and undirected edges are stored
symmetrically. -/
def ValidGraph (g : Graph) : Prop :=
  (∀ u, u < g.N → ∀ v ∈ g.adj u, v < g.N) ∧
  (∀ u, u < g.N → u ∉ g.adj u) ∧
  (∀ u, u < g.N → ∀ v, v < g.N → (v ∈ g.adj u ↔ u ∈ g.adj v))

/-- `set(new[neighbor] for neighbor in graph[node] if neighbor < len(new))`
from `greedy` in `src/coloring/mip.py` (as a list; only membership is used,
so duplicates are irrelevant). -/
def neighColors (g : Graph) (new : List (Option Nat)) (node : Nat) :
    List (Option Nat) :=
  ((g.adj node).filter (fun nb => nb < new.length)).map
    (fun nb => new.getD nb none)

/-- The inner `for min in colors: if min not in neighbors_colors: … break`
loop of `greedy`: the first color in `range(len(graph))` not used by a
neighbor, if any. -/
def findColor (g : Graph) (new : List (Option Nat)) (node : Nat) : Option Nat :=
  (List.range g.N).find? (fun c => !((neighColors g new node).contains (some c)))

/-- One iteration of `greedy`'s while loop body (color assignment part):
assign the found color, or leave the entry unchanged when every color is
taken (the Python loop then falls through without assigning). -/
def colorNode (g : Graph) (new : List (Option Nat)) (node : Nat) :
    List (Option Nat) :=
  match findColor g new node with
  | some c => new.set node (some c)
  | none => new

/-- The `while True` loop of `greedy` over a plain (non-generator) order. -/
def greedyGo (g : Graph) : List Nat → List (Option Nat) → List (Option Nat)
  | [], new => new
  | node :: rest, new => greedyGo g rest (colorNode g new node)

/-- `greedy(graph, order)` from `src/coloring/mip.py` for a sequence order:
start from `new = [None]*len(graph)`, color along the order, and raise
`ValueError` (here `none`) if any node is left uncolored. -/
def greedy (g : Graph) (order : List Nat) : Option (List Nat) :=
  let new := greedyGo g order (List.replicate g.N none)
  if new.contains none then none
  else some (new.map (fun o => o.getD 0))

/-! ### Operational lemmas for the greedy loop -/

theorem colorNode_length (g : Graph) (new : List (Option Nat)) (node : Nat) :
    (colorNode g new node).length = new.length := by
  unfold colorNode
  split <;> simp

theorem greedyGo_length (g : Graph) :
    ∀ (l : List Nat) (new : List (Option Nat)),
      (greedyGo g l new).length = new.length := by
  intro l
  induction l with
  | nil => intro new; rfl
  | cons u rest ih =>
    intro new
    show (greedyGo g rest (colorNode g new u)).length = new.length
    rw [ih, colorNode_length]

theorem colorNode_getD_ne (g : Graph) (new : List (Option Nat)) (node u : Nat)
    (h : u ≠ node) :
    (colorNode g new node).getD u none = new.getD u none := by
  unfold colorNode
  split
  · by_cases hu : u < new.length
    · rw [List.getD_eq_getElem _ _ (by simpa using hu),
        List.getD_eq_getElem _ _ hu]
      exact List.getElem_set_ne (by omega) _
    · rw [List.getD_eq_default _ _ (by simpa using not_lt.mp hu),
        List.getD_eq_default _ _ (not_lt.mp hu)]
  · rfl

theorem greedyGo_getD_notMem (g : Graph) :
    ∀ (l : List Nat) (new : List (Option Nat)) (u : Nat), u ∉ l →
      (greedyGo g l new).getD u none = new.getD u none := by
  intro l
  induction l with
  | nil => intro new u _; rfl
  | cons node rest ih =>
    intro new u hu
    show (greedyGo g rest (colorNode g new node)).getD u none = _
    rw [ih _ u (fun h => hu (by simp [h])),
      colorNode_getD_ne g new node u (fun h => hu (by simp [h]))]

theorem colorNode_getD_set (g : Graph) (new : List (Option Nat)) (node c : Nat)
    (hfind : findColor g new node = some c) (hlt : node < new.length) :
    (colorNode g new node).getD node none = some c := by
  unfold colorNode
  rw [hfind]
  rw [List.getD_eq_getElem _ _ (by simpa using hlt)]
  exact List.getElem_set_self _

theorem findColor_lt (g : Graph) (new : List (Option Nat)) (node c : Nat)
    (h : findColor g new node = some c) : c < g.N := by
  have := List.mem_of_find?_eq_some h
  simpa using this

theorem findColor_not_blocked (g : Graph) (new : List (Option Nat)) (node c : Nat)
    (h : findColor g new node = some c) :
    some c ∉ neighColors g new node := by
  have := List.find?_some h
  simp only [Bool.not_eq_true', ← Bool.not_eq_true] at this
  intro hmem
  exact this (by
    simp only [List.contains_iff_exists_mem_beq]
    exact ⟨some c, hmem, by simp⟩)

theorem range_find?_min (p : Nat → Bool) :
    ∀ (n c : Nat), (List.range n).find? p = some c → ∀ b, b < c → p b = false := by
  intro n
  induction n with
  | zero => intro c h; simp at h
  | succ n ih =>
    intro c h b hb
    rw [List.range_succ, List.find?_append] at h
    cases hfind : (List.range n).find? p with
    | some c' =>
      rw [hfind] at h
      simp only [Option.or] at h
      obtain rfl : c' = c := Option.some_inj.mp h
      exact ih _ hfind b hb
    | none =>
      rw [hfind] at h
      simp only [Option.none_or] at h
      have hc : c = n := by
        have := List.mem_of_find?_eq_some h
        simpa using this
      subst hc
      have := List.find?_eq_none.mp hfind b (by simp; omega)
      simpa using this

theorem findColor_min (g : Graph) (new : List (Option Nat)) (node c : Nat)
    (h : findColor g new node = some c) :
    ∀ b, b < c → some b ∈ neighColors g new node := by
  intro b hb
  have h0 := range_find?_min _ g.N c h b hb
  have this : (neighColors g new node).contains (some b) = true := by
    revert h0
    cases (neighColors g new node).contains (some b) <;> simp
  rw [List.contains_iff_exists_mem_beq] at this
  obtain ⟨o, ho, hbeq⟩ := this
  have : some b = o := by simpa using hbeq
  rwa [this]

/-- Membership in `neighColors` unpacked. -/
theorem mem_neighColors (g : Graph) (new : List (Option Nat)) (node : Nat)
    (o : Option Nat) :
    o ∈ neighColors g new node ↔
      ∃ nb, nb ∈ g.adj node ∧ nb < new.length ∧ new.getD nb none = o := by
  unfold neighColors
  rw [List.mem_map]
  constructor
  · rintro ⟨nb, hnb, rfl⟩
    rw [List.mem_filter] at hnb
    exact ⟨nb, hnb.1, by simpa using hnb.2, rfl⟩
  · rintro ⟨nb, h1, h2, h3⟩
    exact ⟨nb, List.mem_filter.mpr ⟨h1, by simpa using h2⟩, h3⟩

/-- When the node being colored is still uncolored and every assigned color
is below `N`, the inner color search always finds a color: the colored
neighbors occupy at most `N - 1` of the `N` candidate colors. -/
theorem findColor_succeeds (g : Graph) (new : List (Option Nat)) (node : Nat)
    (hlen : new.length = g.N) (hnode : node < g.N)
    (hunc : new.getD node none = none)
    (hvals : ∀ u c, u < g.N → new.getD u none = some c → c < g.N) :
    ∃ c, findColor g new node = some c := by
  cases hfc : findColor g new node with
  | some c => exact ⟨c, rfl⟩
  | none =>
    exfalso
    have hall : ∀ c, c < g.N → some c ∈ neighColors g new node := by
      intro c hc
      have h0 := List.find?_eq_none.mp hfc c (by simpa using hc)
      have h1 : (neighColors g new node).contains (some c) = true := by
        revert h0
        cases (neighColors g new node).contains (some c) <;> simp
      rw [List.contains_iff_exists_mem_beq] at h1
      obtain ⟨o, ho, hbeq⟩ := h1
      have : some c = o := by simpa using hbeq
      rwa [this]
    set T : Finset Nat :=
      (((g.adj node).filter (fun nb => nb < new.length)).toFinset).erase node
      with hT
    have hsub : Finset.range g.N ⊆
        T.image (fun nb => (new.getD nb none).getD 0) := by
      intro c hc
      rw [Finset.mem_range] at hc
      obtain ⟨nb, h1, h2, h3⟩ := (mem_neighColors g new node _).mp (hall c hc)
      have hne : nb ≠ node := by
        intro h
        rw [h, hunc] at h3
        exact Option.noConfusion h3
      refine Finset.mem_image.mpr ⟨nb, ?_, by rw [h3]; rfl⟩
      rw [hT, Finset.mem_erase]
      exact ⟨hne, by
        rw [List.mem_toFinset, List.mem_filter]
        exact ⟨h1, by simpa using h2⟩⟩
    have hTsub : T ⊆ (Finset.range g.N).erase node := by
      intro nb hnb
      rw [hT, Finset.mem_erase] at hnb
      obtain ⟨hne, hmem⟩ := hnb
      rw [List.mem_toFinset, List.mem_filter] at hmem
      rw [Finset.mem_erase, Finset.mem_range]
      refine ⟨hne, ?_⟩
      have := hmem.2
      simp only [decide_eq_true_eq] at this
      omega
    have h1 : g.N ≤ T.card :=
      le_trans (by rw [Finset.card_range]) <|
        le_trans (Finset.card_le_card hsub) (Finset.card_image_le)
    have h2 : T.card ≤ g.N - 1 := by
      calc T.card ≤ ((Finset.range g.N).erase node).card :=
            Finset.card_le_card hTsub
        _ = g.N - 1 := by
            rw [Finset.card_erase_of_mem (Finset.mem_range.mpr hnode),
              Finset.card_range]
    omega

/-- The loop invariant of `greedy`: the working list has one slot per node,
a node is colored exactly when it has already been handed out by the order,
and every assigned color is `< N`. -/
def GInv (g : Graph) (done : List Nat) (new : List (Option Nat)) : Prop :=
  new.length = g.N ∧
  (∀ x, x < g.N → (new.getD x none ≠ none ↔ x ∈ done)) ∧
  (∀ x c, x < g.N → new.getD x none = some c → c < g.N)

theorem colorNode_inv (g : Graph) (done : List Nat) (new : List (Option Nat))
    (u : Nat) (hu : u < g.N) (hinv : GInv g done new) :
    GInv g (done ++ [u]) (colorNode g new u) := by
  obtain ⟨hlen, hcol, hvals⟩ := hinv
  cases hfc : findColor g new u with
  | none =>
    have hucol : u ∈ done := by
      by_contra hnd
      have hunc : new.getD u none = none := by
        by_contra h
        exact hnd ((hcol u hu).mp h)
      obtain ⟨c, hc⟩ := findColor_succeeds g new u hlen hu hunc
        (fun x c hx h => hvals x c hx h)
      rw [hfc] at hc
      exact Option.noConfusion hc
    have heq : colorNode g new u = new := by
      unfold colorNode
      rw [hfc]
    rw [heq]
    exact ⟨hlen, fun x hx => by
      rw [hcol x hx]
      constructor
      · intro h; exact List.mem_append.mpr (Or.inl h)
      · intro h
        rcases List.mem_append.mp h with h | h
        · exact h
        · simp at h
          subst h
          exact hucol, hvals⟩
  | some c =>
    have heq : colorNode g new u = new.set u (some c) := by
      unfold colorNode
      rw [hfc]
    have hcN : c < g.N := findColor_lt g new u c hfc
    rw [heq]
    refine ⟨by simp [hlen], fun x hx => ?_, fun x cx hx hget => ?_⟩
    · by_cases hxu : x = u
      · subst hxu
        rw [List.getD_eq_getElem _ _ (by simp; omega)]
        rw [List.getElem_set_self]
        simp
      · rw [List.getD_eq_getElem _ _ (by simp; omega),
          List.getElem_set_ne (by omega) _,
          ← List.getD_eq_getElem _ none (by omega)]
        rw [hcol x hx]
        constructor
        · intro h; exact List.mem_append.mpr (Or.inl h)
        · intro h
          rcases List.mem_append.mp h with h | h
          · exact h
          · simp at h; exact absurd h hxu
    · by_cases hxu : x = u
      · subst hxu
        rw [List.getD_eq_getElem _ _ (by simp; omega),
          List.getElem_set_self] at hget
        obtain rfl : c = cx := Option.some_inj.mp hget
        exact hcN
      · rw [List.getD_eq_getElem _ _ (by simp; omega),
          List.getElem_set_ne (by omega) _,
          ← List.getD_eq_getElem _ none (by omega)] at hget
        exact hvals x cx hx hget

/-- Running the loop over `rest` extends the invariant: afterwards exactly
the nodes of `done ++ rest` are colored. -/
theorem greedyGo_covers (g : Graph) :
    ∀ (rest done : List Nat) (new : List (Option Nat)),
      (∀ x ∈ rest, x < g.N) → GInv g done new →
      GInv g (done ++ rest) (greedyGo g rest new) := by
  intro rest
  induction rest with
  | nil => intro done new _ hinv; simpa using hinv
  | cons u rest' ih =>
    intro done new hrange hinv
    have hu : u < g.N := hrange u (by simp)
    have hstep := colorNode_inv g done new u hu hinv
    have := ih (done ++ [u]) (colorNode g new u)
      (fun x hx => hrange x (by simp [hx])) hstep
    show GInv g (done ++ u :: rest') (greedyGo g rest' (colorNode g new u))
    simpa using this

theorem GInv_init (g : Graph) : GInv g [] (List.replicate g.N none) := by
  refine ⟨by simp, fun x hx => ?_, fun x c hx h => ?_⟩
  · rw [List.getD_eq_getElem _ _ (by simpa using hx)]
    simp
  · rw [List.getD_eq_getElem _ _ (by simpa using hx)] at h
    simp at h

/-- Claim C8: the greedy primitive raises the ordering `ValueError` if and
only if the supplied order (of in-range nodes) omits at least one node of
the graph.  In particular, a color is always found for every handed-out
node, so an omitted node is the only way to leave a `None` behind. -/
theorem C8_greedy_ordering_error (g : Graph) (order : List Nat)
    (hrange : ∀ x ∈ order, x < g.N) :
    greedy g order = none ↔ ∃ u, u < g.N ∧ u ∉ order := by
  have hcov := greedyGo_covers g order [] (List.replicate g.N none) hrange
    (GInv_init g)
  simp only [List.nil_append] at hcov
  obtain ⟨hlen, hcol, _⟩ := hcov
  set new := greedyGo g order (List.replicate g.N none) with hnew
  have hcontains : new.contains none = true ↔ ∃ u, u < g.N ∧ u ∉ order := by
    rw [List.contains_iff_exists_mem_beq]
    constructor
    · rintro ⟨o, ho, hbeq⟩
      have ho' : o = none := by
        cases o
        · rfl
        · simp at hbeq
      subst ho'
      obtain ⟨i, hi, hget⟩ := List.mem_iff_getElem.mp ho
      have hiN : i < g.N := by rw [← hlen]; exact hi
      refine ⟨i, hiN, fun hmem => ?_⟩
      have := (hcol i hiN).mpr hmem
      rw [List.getD_eq_getElem _ _ hi, hget] at this
      exact this rfl
    · rintro ⟨u, huN, hmem⟩
      have : ¬ new.getD u none ≠ none := fun h => hmem ((hcol u huN).mp h)
      have hnone : new.getD u none = none := not_not.mp this
      rw [List.getD_eq_getElem _ _ (by omega)] at hnone
      exact ⟨none, List.mem_iff_getElem.mpr ⟨u, by omega, hnone⟩, by simp⟩
  unfold greedy
  rw [← hnew]
  constructor
  · intro h
    by_cases hc : new.contains none
    · exact hcontains.mp hc
    · rw [if_neg hc] at h
      exact Option.noConfusion h
  · intro h
    rw [if_pos (hcontains.mpr h)]

/-- Claim C8, witness: on the two-node edgeless graph, the order `[0]` omits
node 1 and greedy raises the ordering error. -/
theorem C8_greedy_ordering_error_witness :
    greedy ⟨2, fun _ => []⟩ [0] = none :=
  (C8_greedy_ordering_error ⟨2, fun _ => []⟩ [0] (by decide)).mpr
    ⟨1, by decide, by decide⟩

theorem getD_map_colored (l : List (Option Nat)) (u c : Nat)
    (h : l.getD u none = some c) :
    (l.map (fun o => o.getD 0)).getD u 0 = c := by
  have hu : u < l.length := by
    by_contra h'
    rw [List.getD_eq_default _ _ (not_lt.mp h')] at h
    exact Option.noConfusion h
  rw [List.getD_eq_getElem _ _ (by simpa using hu), List.getElem_map]
  rw [List.getD_eq_getElem _ _ hu] at h
  rw [h]
  rfl

/-- The central characterization of the greedy loop on a duplicate-free
order: each handed-out node u ends colored with exactly the least color not
already used by a neighbor that comes earlier in the order. -/
theorem greedyGo_least (g : Graph) (order : List Nat) (hnd : order.Nodup)
    (hrange : ∀ x ∈ order, x < g.N) :
    ∀ (rest done : List Nat) (new : List (Option Nat)),
      order = done ++ rest → GInv g done new →
      ∀ u ∈ rest, ∃ cu,
        (greedyGo g rest new).getD u none = some cu ∧ cu < g.N ∧
        (∀ nb, nb ∈ g.adj u → nb < g.N →
          order.indexOf nb < order.indexOf u →
          (greedyGo g rest new).getD nb none ≠ some cu) ∧
        (∀ b, b < cu → ∃ nb, nb ∈ g.adj u ∧ nb < g.N ∧
          order.indexOf nb < order.indexOf u ∧
          (greedyGo g rest new).getD nb none = some b) := by
  intro rest
  induction rest with
  | nil => intro done new _ _ u hu; simp at hu
  | cons u rest' ih =>
    intro done new horder hinv u' hu'
    have hinv' := hinv
    obtain ⟨hlen, hcol, hvals⟩ := hinv'
    have hndsplit : done.Nodup ∧ (u :: rest').Nodup ∧ done.Disjoint (u :: rest') := by
      rw [horder, List.nodup_append] at hnd
      exact hnd
    have hudone : u ∉ done := fun h => hndsplit.2.2 h (by simp)
    have hurest : u ∉ rest' := by
      have := hndsplit.2.1
      rw [List.nodup_cons] at this
      exact this.1
    have huN : u < g.N := hrange u (by rw [horder]; simp)
    have hunc : new.getD u none = none := by
      by_contra h
      exact hudone ((hcol u huN).mp h)
    obtain ⟨cu, hfc⟩ := findColor_succeeds g new u hlen huN hunc
      (fun x c hx h => hvals x c hx h)
    have hidxu : order.indexOf u = done.length := by
      rw [horder, List.indexOf_append_of_not_mem hudone,
        List.indexOf_cons_self]
      omega
    have hmemdone : ∀ nb, order.indexOf nb < order.indexOf u → nb ∈ done := by
      intro nb hlt
      by_contra hnd'
      have h1 : order.indexOf nb = done.length + (u :: rest').indexOf nb := by
        conv_lhs => rw [horder]
        exact List.indexOf_append_of_not_mem hnd'
      rw [h1, hidxu] at hlt
      omega
    have hdonelt : ∀ nb ∈ done, order.indexOf nb < order.indexOf u := by
      intro nb hnb
      have h1 : order.indexOf nb = done.indexOf nb := by
        conv_lhs => rw [horder]
        exact List.indexOf_append_of_mem hnb
      rw [h1, hidxu]
      exact List.indexOf_lt_length.mpr hnb
    have hdone_notrest : ∀ nb ∈ done, nb ∉ u :: rest' :=
      fun nb hnb => hndsplit.2.2 hnb
    have hstep : colorNode g new u = new.set u (some cu) := by
      unfold colorNode
      rw [hfc]
    have hinv1 := colorNode_inv g done new u huN hinv
    have hgo : greedyGo g (u :: rest') new = greedyGo g rest' (colorNode g new u) :=
      rfl
    have hkeep : ∀ nb ∈ done,
        (greedyGo g rest' (colorNode g new u)).getD nb none = new.getD nb none := by
      intro nb hnb
      rw [greedyGo_getD_notMem g rest' _ nb
        (fun h => hdone_notrest nb hnb (by simp [h]))]
      exact colorNode_getD_ne g new u nb
        (fun h => hudone (h ▸ hnb))
    rcases List.mem_cons.mp hu' with rfl | hu'
    · -- the head node itself
      refine ⟨cu, ?_, findColor_lt g new u' cu hfc, ?_, ?_⟩
      · rw [hgo, greedyGo_getD_notMem g rest' _ u' hurest, hstep,
          List.getD_eq_getElem _ _ (by simp; omega), List.getElem_set_self]
      · intro nb hadj hnbN hlt
        have hnbdone := hmemdone nb hlt
        rw [hgo, hkeep nb hnbdone]
        intro heq
        exact findColor_not_blocked g new u' cu hfc
          ((mem_neighColors g new u' (some cu)).mpr ⟨nb, hadj, by omega, heq⟩)
      · intro b hb
        obtain ⟨nb, hadj, hnblen, hget⟩ :=
          (mem_neighColors g new u' (some b)).mp (findColor_min g new u' cu hfc b hb)
        have hnbN : nb < g.N := by omega
        have hnbdone : nb ∈ done := (hcol nb hnbN).mp (by rw [hget]; simp)
        exact ⟨nb, hadj, hnbN, hdonelt nb hnbdone, by rw [hgo, hkeep nb hnbdone, hget]⟩
    · -- a node later in the order
      have horder' : order = (done ++ [u]) ++ rest' := by
        rw [horder]; simp
      exact ih (done ++ [u]) (colorNode g new u) horder' hinv1 u' hu'

/-- Claim C2: on a valid graph, for every order covering each node exactly
once, greedy succeeds and returns a coloring of length N in which every node
has a color in `{0, …, N-1}`, equal to the smallest color not used by any
neighbor earlier in the order (no earlier neighbor has it, and every smaller
color is taken by an earlier neighbor), and the coloring is proper. -/
theorem C2_greedy_coloring (g : Graph) (order : List Nat) (hg : ValidGraph g)
    (hnd : order.Nodup) (hrange : ∀ x ∈ order, x < g.N)
    (hall : ∀ u, u < g.N → u ∈ order) :
    ∃ cs, greedy g order = some cs ∧ cs.length = g.N ∧
      (∀ u, u < g.N → cs.getD u 0 < g.N) ∧
      (∀ u, u < g.N → ∀ nb ∈ g.adj u, cs.getD nb 0 ≠ cs.getD u 0) ∧
      (∀ u, u < g.N →
        (∀ nb ∈ g.adj u, order.indexOf nb < order.indexOf u →
          cs.getD nb 0 ≠ cs.getD u 0) ∧
        (∀ b, b < cs.getD u 0 → ∃ nb ∈ g.adj u,
          order.indexOf nb < order.indexOf u ∧ cs.getD nb 0 = b)) := by
  obtain ⟨hadjN, hirr, hsym⟩ := hg
  have hcov := greedyGo_covers g order [] (List.replicate g.N none) hrange
    (GInv_init g)
  simp only [List.nil_append] at hcov
  obtain ⟨hlen, hcol, hvals⟩ := hcov
  have hchar := greedyGo_least g order hnd hrange order [] (List.replicate g.N none)
    (by simp) (GInv_init g)
  set new := greedyGo g order (List.replicate g.N none) with hnew
  have hcf : new.contains none = false := by
    cases hc : new.contains none
    · rfl
    · exfalso
      rw [List.contains_iff_exists_mem_beq] at hc
      obtain ⟨o, ho, hbeq⟩ := hc
      have ho' : o = none := by
        cases o
        · rfl
        · simp at hbeq
      subst ho'
      obtain ⟨i, hi, hget⟩ := List.mem_iff_getElem.mp ho
      have hiN : i < g.N := by rw [← hlen]; exact hi
      have := (hcol i hiN).mpr (hall i hiN)
      rw [List.getD_eq_getElem _ _ hi, hget] at this
      exact this rfl
  set cs := new.map (fun o => o.getD 0) with hcs
  have hgr : greedy g order = some cs := by
    unfold greedy
    rw [← hnew]
    rw [if_neg (by rw [hcf]; exact Bool.false_ne_true)]
  have hcharcs : ∀ u, u < g.N → new.getD u none = some (cs.getD u 0) ∧
      cs.getD u 0 < g.N ∧
      (∀ nb, nb ∈ g.adj u → nb < g.N →
        order.indexOf nb < order.indexOf u → cs.getD nb 0 ≠ cs.getD u 0) ∧
      (∀ b, b < cs.getD u 0 → ∃ nb, nb ∈ g.adj u ∧
        order.indexOf nb < order.indexOf u ∧ cs.getD nb 0 = b) := by
    intro u huN
    obtain ⟨cu, hgetu, hcuN, hblocked, hmin⟩ := hchar u (hall u huN)
    have hcsu : cs.getD u 0 = cu := getD_map_colored new u cu hgetu
    rw [hcsu]
    refine ⟨hgetu, hcuN, ?_, ?_⟩
    · intro nb hadj hnbN hlt heq
      obtain ⟨cnb, hnbcol⟩ : ∃ c, new.getD nb none = some c := by
        have h1 := (hcol nb hnbN).mpr (hall nb hnbN)
        cases h : new.getD nb none
        · exact absurd h h1
        · exact ⟨_, rfl⟩
      have hcsnb : cs.getD nb 0 = cnb := getD_map_colored new nb cnb hnbcol
      rw [hcsnb] at heq
      subst heq
      exact hblocked nb hadj hnbN hlt hnbcol
    · intro b hb
      obtain ⟨nb, hadj, hnbN, hlt, hget⟩ := hmin b hb
      exact ⟨nb, hadj, hlt, getD_map_colored new nb b hget⟩
  refine ⟨cs, hgr, by rw [hcs]; simp [hlen], fun u hu => (hcharcs u hu).2.1,
    ?_, fun u hu => ⟨fun nb hadj hlt => (hcharcs u hu).2.2.1 nb hadj
      (hadjN u hu nb hadj) hlt,
      fun b hb => (hcharcs u hu).2.2.2 b hb⟩⟩
  intro u huN nb hadj
  have hnbN : nb < g.N := hadjN u huN nb hadj
  have hne : nb ≠ u := fun h => hirr u huN (h ▸ hadj)
  have hmemu : u ∈ order := hall u huN
  have hmemnb : nb ∈ order := hall nb hnbN
  have hidxne : order.indexOf nb ≠ order.indexOf u :=
    fun h => hne ((List.indexOf_inj hmemnb hmemu).mp h)
  rcases lt_or_gt_of_ne hidxne with hlt | hgt
  · exact (hcharcs u huN).2.2.1 nb hadj hnbN hlt
  · have hadj' : u ∈ g.adj nb := (hsym nb hnbN u huN).mpr hadj
    exact fun h => (hcharcs nb hnbN).2.2.1 u hadj' huN hgt h.symm

/-- Claim C2, witness: the 4-cycle with label order (spec scenario 2), where
greedy produces the proper 2-coloring `[0, 1, 0, 1]`. -/
theorem C2_greedy_coloring_witness :
    (∃ cs, greedy ⟨4, fun u => if u = 0 then [1, 3] else if u = 1 then [0, 2]
        else if u = 2 then [1, 3] else if u = 3 then [2, 0] else []⟩
        [0, 1, 2, 3] = some cs ∧ cs.length = 4 ∧
      (∀ u, u < 4 → cs.getD u 0 < 4) ∧
      (∀ u, u < 4 → ∀ nb ∈ (if u = 0 then [1, 3] else if u = 1 then [0, 2]
        else if u = 2 then [1, 3] else if u = 3 then [2, 0] else []),
        cs.getD nb 0 ≠ cs.getD u 0) ∧
      (∀ u, u < 4 →
        (∀ nb ∈ (if u = 0 then [1, 3] else if u = 1 then [0, 2]
          else if u = 2 then [1, 3] else if u = 3 then [2, 0] else []),
          List.indexOf nb [0, 1, 2, 3] < List.indexOf u [0, 1, 2, 3] →
          cs.getD nb 0 ≠ cs.getD u 0) ∧
        (∀ b, b < cs.getD u 0 → ∃ nb ∈ (if u = 0 then [1, 3]
          else if u = 1 then [0, 2] else if u = 2 then [1, 3]
          else if u = 3 then [2, 0] else []),
          List.indexOf nb [0, 1, 2, 3] < List.indexOf u [0, 1, 2, 3] ∧
          cs.getD nb 0 = b))) ∧
    greedy ⟨4, fun u => if u = 0 then [1, 3] else if u = 1 then [0, 2]
      else if u = 2 then [1, 3] else if u = 3 then [2, 0] else []⟩
      [0, 1, 2, 3] = some [0, 1, 0, 1] :=
  ⟨C2_greedy_coloring _ [0, 1, 2, 3]
    (by refine ⟨?_, ?_, ?_⟩ <;> decide) (by decide) (by decide) (by decide),
   by decide⟩

/-! ### The feasibility checker `is_feasible` -/

/-- The failure reasons of `is_feasible` in `src/coloring/mip.py`, with the
data interpolated into each Python message string. -/
inductive Reason where
  | wrongLength (expected found : Nat)
  | wrongObjective (expected found : Int)
  | badColor (node : Nat) (color : Int)
  | conflict (node neighbor : Nat) (color : Int)
deriving DecidableEq

/-- The per-node body of `is_feasible`'s main loop: first the color-validity
check for `node`, then its neighbor loop (first conflicting neighbor in
adjacency order).  Colors are embedded as `Int`, so of the Python validity
test `not isinstance(color, int) or color < 0` only the sign part remains
expressible. -/
def nodeCheck (g : Graph) (colors : List Int) (v : Nat) : Option Reason :=
  if colors.getD v 0 < 0 then some (.badColor v (colors.getD v 0))
  else
    match (g.adj v).find? (fun nb => colors.getD nb 0 == colors.getD v 0) with
    | some nb => some (.conflict v nb (colors.getD v 0))
    | none => none

/-- `is_feasible(graph, colors, obj)` from `src/coloring/mip.py`.  The outer
`Option` models abnormal termination: `none` is the uncaught exception of
`max(colors)` on an empty list; `some verdict` is a normal return, with
`verdict = none` for a valid coloring and `verdict = some r` the reason
returned for the first failing check. -/
def is_feasible (g : Graph) (colors : List Int) (obj : Int) :
    Option (Option Reason) :=
  if g.N ≠ colors.length then
    some (some (.wrongLength g.N colors.length))
  else
    match colors.max? with
    | none => none
    | some m =>
      if m ≠ obj then some (some (.wrongObjective obj m))
      else some ((List.range g.N).findSome? (nodeCheck g colors))

theorem nodeCheck_eq_none (g : Graph) (colors : List Int) (v : Nat) :
    nodeCheck g colors v = none ↔
      (0 ≤ colors.getD v 0 ∧
        ∀ nb ∈ g.adj v, colors.getD nb 0 ≠ colors.getD v 0) := by
  unfold nodeCheck
  by_cases hc : colors.getD v 0 < 0
  · rw [if_pos hc]
    constructor
    · intro h; exact Option.noConfusion h
    · rintro ⟨h0, _⟩; omega
  · rw [if_neg hc]
    cases hf : (g.adj v).find? (fun nb => colors.getD nb 0 == colors.getD v 0) with
    | some nb =>
      constructor
      · intro h; exact Option.noConfusion h
      · rintro ⟨_, hno⟩
        have h1 := List.find?_some hf
        have h2 := List.mem_of_find?_eq_some hf
        exact absurd (by simpa using h1) (hno nb h2)
    | none =>
      constructor
      · intro _
        refine ⟨by omega, fun nb hnb heq => ?_⟩
        have h2 := List.find?_eq_none.mp hf nb hnb
        apply h2
        rw [heq]
        exact beq_self_eq_true _
      · intro _
        rfl

theorem range_findSome?_first {β : Type} (f : Nat → Option β) (N v : Nat)
    (hv : v < N) (hprev : ∀ u, u < v → f u = none) (hsome : f v ≠ none) :
    (List.range N).findSome? f = f v := by
  have hN : N = (v + 1) + (N - v - 1) := by omega
  rw [hN, List.range_add, List.findSome?_append, List.range_succ,
    List.findSome?_append]
  have h1 : (List.range v).findSome? f = none :=
    List.findSome?_eq_none_iff.mpr (fun u hu => hprev u (by simpa using hu))
  rw [h1]
  cases hfv : f v with
  | none => exact absurd hfv hsome
  | some r => simp [List.findSome?, hfv]

/-- Claim C5, counterexample.  The claim orders check (3), color validity of
every node, before check (4), any edge conflict.  The code interleaves them
per node: on the triangle-free graph `0 – 1, 2 isolated` with colors
`[0, 0, -5]` and claimed objective 0, node 2 has the invalid color −5, yet
the verdict is the edge conflict between nodes 0 and 1 (node 0's edges are
checked before node 2's color). -/
theorem C5_is_feasible_order_counterexample :
    is_feasible ⟨3, fun u => if u = 0 then [1] else if u = 1 then [0] else []⟩
        [0, 0, -5] 0 =
      some (some (.conflict 0 1 0)) ∧
    ([0, 0, -5] : List Int).getD 2 0 < 0 := by
  constructor
  · rfl
  · decide

/-- Claim C5, amended: `is_feasible` returns `None` iff the coloring has the
right length, `max(colors)` equals the claimed objective, every color is
non-negative and no edge joins two same-colored nodes; when checks fail the
reason is the first failing check in the order (1) length, (2) objective,
then **per node in label order** first that node's color validity and then
its edge conflicts (in adjacency order). -/
theorem C5_is_feasible_checks (g : Graph) (colors : List Int) (obj : Int) :
    (is_feasible g colors obj = some none ↔
      (g.N = colors.length ∧ colors.max? = some obj ∧
        (∀ u, u < g.N → 0 ≤ colors.getD u 0) ∧
        (∀ u, u < g.N → ∀ nb ∈ g.adj u, colors.getD nb 0 ≠ colors.getD u 0))) ∧
    (g.N ≠ colors.length →
      is_feasible g colors obj = some (some (.wrongLength g.N colors.length))) ∧
    (g.N = colors.length → ∀ m, colors.max? = some m → m ≠ obj →
      is_feasible g colors obj = some (some (.wrongObjective obj m))) ∧
    (g.N = colors.length → colors.max? = some obj →
      ∀ v, v < g.N → (∀ u, u < v → nodeCheck g colors u = none) →
        nodeCheck g colors v ≠ none →
        is_feasible g colors obj = some (nodeCheck g colors v)) ∧
    (∀ v, colors.getD v 0 < 0 →
      nodeCheck g colors v = some (.badColor v (colors.getD v 0))) := by
  refine ⟨?_, ?_, ?_, ?_, ?_⟩
  · unfold is_feasible
    by_cases hlen : g.N ≠ colors.length
    · rw [if_pos hlen]
      constructor
      · intro h
        simp at h
      · rintro ⟨h, _⟩
        exact absurd h hlen
    · rw [if_neg hlen]
      cases hmax : colors.max? with
      | none =>
        constructor
        · intro h; exact Option.noConfusion h
        · rintro ⟨_, h, _⟩
          exact Option.noConfusion h
      | some m =>
        simp only []
        by_cases hm : m ≠ obj
        · rw [if_pos hm]
          constructor
          · intro h
            exact absurd (Option.some_inj.mp h) (by simp)
          · rintro ⟨_, h, _⟩
            exact absurd (Option.some_inj.mp h) hm
        · rw [if_neg hm]
          push_neg at hm
          subst hm
          constructor
          · intro h
            have hfs : (List.range g.N).findSome? (nodeCheck g colors) = none :=
              Option.some_inj.mp h
            have hall := List.findSome?_eq_none_iff.mp hfs
            refine ⟨by omega, rfl, fun u hu => ?_, fun u hu => ?_⟩
            · exact ((nodeCheck_eq_none g colors u).mp
                (hall u (by simpa using hu))).1
            · exact ((nodeCheck_eq_none g colors u).mp
                (hall u (by simpa using hu))).2
          · rintro ⟨_, _, hnonneg, hproper⟩
            have : (List.range g.N).findSome? (nodeCheck g colors) = none :=
              List.findSome?_eq_none_iff.mpr (fun u hu =>
                (nodeCheck_eq_none g colors u).mpr
                  ⟨hnonneg u (by simpa using hu), hproper u (by simpa using hu)⟩)
            rw [this]
  · intro hlen
    unfold is_feasible
    rw [if_pos hlen]
  · intro hlen m hmax hm
    unfold is_feasible
    rw [if_neg (by omega), hmax]
    simp only []
    rw [if_pos hm]
  · intro hlen hmax v hv hprev hsome
    unfold is_feasible
    rw [if_neg (by omega), hmax]
    simp only []
    rw [if_neg (by simp)]
    rw [range_findSome?_first (nodeCheck g colors) g.N v hv hprev hsome]
  · intro v hneg
    unfold nodeCheck
    rw [if_pos hneg]

/-- Claim C5, witness: the round-trip direction on the 2-path with the valid
coloring `[0, 1]`, objective 1, and one failing instantiation of each
priority clause. -/
theorem C5_is_feasible_checks_witness :
    (is_feasible ⟨2, fun u => if u = 0 then [1] else if u = 1 then [0] else []⟩
        [0, 1] 1 = some none ↔
      ((2:Nat) = 2 ∧ ([0, 1] : List Int).max? = some 1 ∧
        (∀ u, u < 2 → 0 ≤ ([0, 1] : List Int).getD u 0) ∧
        (∀ u, u < 2 → ∀ nb ∈ (if u = 0 then [1] else if u = 1 then [0] else []),
          ([0, 1] : List Int).getD nb 0 ≠ ([0, 1] : List Int).getD u 0))) ∧
    is_feasible ⟨2, fun u => if u = 0 then [1] else if u = 1 then [0] else []⟩
        [0] 0 = some (some (.wrongLength 2 1)) ∧
    is_feasible ⟨2, fun u => if u = 0 then [1] else if u = 1 then [0] else []⟩
        [0, 1] 7 = some (some (.wrongObjective 7 1)) := by
  have h := C5_is_feasible_checks
    ⟨2, fun u => if u = 0 then [1] else if u = 1 then [0] else []⟩ [0, 1] 1
  refine ⟨h.1, ?_, ?_⟩
  · exact (C5_is_feasible_checks _ [0] 0).2.1 (by decide)
  · exact (C5_is_feasible_checks _ [0, 1] 7).2.2.1 (by decide) 1 (by decide)
      (by decide)

/-- Claim C10: the checker's None-or-reason contract only holds for graphs
with at least one node.  For the zero-node graph with the empty coloring the
length check passes and `max(colors)` raises (outer `none`, no verdict);
for any graph with a node, a verdict is always produced. -/
theorem C10_is_feasible_empty_graph :
    (∀ (adj : Nat → List Nat) (obj : Int),
      is_feasible ⟨0, adj⟩ [] obj = none) ∧
    (∀ (g : Graph) (colors : List Int) (obj : Int), 1 ≤ g.N →
      is_feasible g colors obj ≠ none) := by
  constructor
  · intro adj obj
    rfl
  · intro g colors obj hN
    unfold is_feasible
    by_cases hlen : g.N ≠ colors.length
    · rw [if_pos hlen]
      exact Option.noConfusion
    · rw [if_neg hlen]
      have hne : colors ≠ [] := by
        intro h
        rw [h] at hlen
        simp at hlen
        omega
      cases hmax : colors.max? with
      | none => exact absurd (List.max?_eq_none_iff.mp hmax) hne
      | some m =>
        simp only []
        by_cases hm : m ≠ obj
        · rw [if_pos hm]
          exact Option.noConfusion
        · rw [if_neg hm]
          exact Option.noConfusion

/-- Claim C10, witness: concrete instances of both clauses. -/
theorem C10_is_feasible_empty_graph_witness :
    is_feasible ⟨0, fun _ => []⟩ [] 5 = none ∧
    is_feasible ⟨1, fun _ => []⟩ [0] 0 ≠ none :=
  ⟨C10_is_feasible_empty_graph.1 (fun _ => []) 5,
   C10_is_feasible_empty_graph.2 ⟨1, fun _ => []⟩ [0] 0 (by decide)⟩

/-! ### The generator (adaptive order source) path of `greedy` -/

/-- A cooperative order source (a Python generator) as a state machine.
`resume s received` resumes the generator in state `s`; `received` is the
value the yield expression evaluates to (`none` for `next(order)`, which
sends `None`, and `some new` for `order.send(new)`).  It returns the node
yielded next together with the successor state, or `none` when the
generator is exhausted (raises `StopIteration`). -/
structure OrderGen (σ : Type) where
  start : σ
  resume : σ → Option (List (Option Nat)) → Option (Nat × σ)

/-- How a run of `greedy` with a generator order source ends. -/
inductive GenRun where
  | raisedStop
  | raisedValueError
  | finished (colors : List Nat)
deriving DecidableEq

/-- The `while True` loop of `greedy` when `order` is a generator, from
`src/coloring/mip.py`: `node = next(order)` (with `StopIteration` caught and
turned into `break`), color the node, then `order.send(new)` — whose return
value the code discards, and whose `StopIteration` is *not* caught.  The
outer `none` means the fuel ran out (the source loop alone does not
terminate for endless generators). -/
def greedyGenGo {σ : Type} (g : Graph) (gen : OrderGen σ) :
    Nat → σ → List (Option Nat) → Option (Option (List (Option Nat)))
  | 0, _, _ => none
  | fuel + 1, s, new =>
    match gen.resume s none with
    | none => some (some new)
    | some (node, s1) =>
      match gen.resume s1 (some (colorNode g new node)) with
      | none => some none
      | some (_, s2) => greedyGenGo g gen fuel s2 (colorNode g new node)

/-- `greedy(graph, order)` for a generator order source: run the loop, then
raise `ValueError` if a node is uncolored, as in the sequence case. -/
def greedyGen {σ : Type} (g : Graph) (gen : OrderGen σ) (fuel : Nat) :
    Option GenRun :=
  match greedyGenGo g gen fuel gen.start (List.replicate g.N none) with
  | none => none
  | some none => some .raisedStop
  | some (some new) =>
    if new.contains none then some .raisedValueError
    else some (.finished (new.map (fun o => o.getD 0)))

/-- The order source of the C7 failing input: a generator over the two-node
edgeless graph that yields node 0, then node 1, then is exhausted —
regardless of what is sent into it (a plain `yield`-each-node generator). -/
def gen01 : OrderGen Nat :=
  ⟨0, fun s _ => if s = 0 then some (0, 1) else if s = 1 then some (1, 2)
    else none⟩

/-- Claim C7, evaluation of the code at the failing input.  On the two-node
edgeless graph with the order source `gen01`: after node 0 is colored, the
source responds to `order.send(new)` (with the updated partial coloring
`[some 0, none]`) by supplying node 1 — but the code discards that node,
calls `next(order)` again, finds the source exhausted, and ends with the
ordering `ValueError`, node 1 never having been colored.  Under the claimed
strict alternation, node 1 would have been the next node colored and the run
would have finished with a total coloring. -/
theorem C7_generator_send_discarded :
    gen01.resume 1 (some [some 0, none]) = some (1, 2) ∧
    greedyGenGo ⟨2, fun _ => []⟩ gen01 10 gen01.start
      (List.replicate 2 none) = some (some [some 0, none]) ∧
    greedyGen ⟨2, fun _ => []⟩ gen01 10 = some .raisedValueError := by
  refine ⟨by decide, by decide, by decide⟩

/-! ### Python `sorted(…, key=…)`: a stable ascending sort -/

/-- Insert `x` into `l` before the first element whose key is not smaller
(so after every strictly smaller key and before every equal key). -/
def insortKey {α : Type} (key : α → Int) (x : α) : List α → List α
  | [] => [x]
  | y :: ys => if key x ≤ key y then x :: y :: ys else y :: insortKey key x ys

/-- Python's `sorted(l, key=key)`: a stable sort, ascending by key.  Any
stable ascending sort computes the same list, so insertion sort is used. -/
def pysorted {α : Type} (key : α → Int) : List α → List α
  | [] => []
  | x :: xs => insortKey key x (pysorted key xs)

theorem insortKey_perm {α : Type} (key : α → Int) (x : α) :
    ∀ l : List α, List.Perm (insortKey key x l) (x :: l) := by
  intro l
  induction l with
  | nil => exact List.Perm.refl _
  | cons y ys ih =>
    unfold insortKey
    split
    · exact List.Perm.refl _
    · exact List.Perm.trans (List.Perm.cons y ih) (List.Perm.swap x y ys)

theorem pysorted_perm {α : Type} (key : α → Int) :
    ∀ l : List α, List.Perm (pysorted key l) l := by
  intro l
  induction l with
  | nil => exact List.Perm.refl _
  | cons x xs ih =>
    exact List.Perm.trans (insortKey_perm key x (pysorted key xs))
      (List.Perm.cons x ih)

theorem insortKey_pairwise_lex {α : Type} (key key' : α → Int) (x : α) :
    ∀ l : List α,
      (∀ y ∈ l, key' x ≤ key' y) →
      l.Pairwise (fun a b => key a < key b ∨ (key a = key b ∧ key' a ≤ key' b)) →
      (insortKey key x l).Pairwise
        (fun a b => key a < key b ∨ (key a = key b ∧ key' a ≤ key' b)) := by
  intro l
  induction l with
  | nil =>
    intro _ _
    exact List.pairwise_singleton _ x
  | cons y ys ih =>
    intro hsec hpw
    rw [List.pairwise_cons] at hpw
    obtain ⟨hy, hys⟩ := hpw
    unfold insortKey
    by_cases hxy : key x ≤ key y
    · rw [if_pos hxy]
      rw [List.pairwise_cons]
      refine ⟨?_, List.pairwise_cons.mpr ⟨hy, hys⟩⟩
      intro z hz
      rcases List.mem_cons.mp hz with rfl | hz'
      · rcases lt_or_eq_of_le hxy with h | h
        · exact Or.inl h
        · exact Or.inr ⟨h, hsec z (by simp)⟩
      · have h1 := hy z hz'
        rcases h1 with h1 | ⟨h1, _⟩
        · rcases lt_or_eq_of_le hxy with h | h
          · exact Or.inl (lt_trans h h1)
          · exact Or.inl (h ▸ h1)
        · rcases lt_or_eq_of_le hxy with h | h
          · exact Or.inl (h1 ▸ h)
          · exact Or.inr ⟨h.trans h1, hsec z (by simp [hz'])⟩
    · rw [if_neg hxy]
      rw [List.pairwise_cons]
      constructor
      · intro z hz
        have hperm := insortKey_perm key x ys
        have hzmem : z ∈ x :: ys := hperm.mem_iff.mp hz
        rcases List.mem_cons.mp hzmem with rfl | hz'
        · exact Or.inl (by omega)
        · exact hy z hz'
      · exact ih (fun z hz => hsec z (by simp [hz])) hys

/-- Stability composed with sortedness: sorting a `key'`-sorted list by
`key` produces a list sorted lexicographically by `(key, key')`. -/
theorem pysorted_pairwise_lex {α : Type} (key key' : α → Int) :
    ∀ l : List α,
      l.Pairwise (fun a b => key' a ≤ key' b) →
      (pysorted key l).Pairwise
        (fun a b => key a < key b ∨ (key a = key b ∧ key' a ≤ key' b)) := by
  intro l
  induction l with
  | nil => intro _; exact List.Pairwise.nil
  | cons x xs ih =>
    intro hpw
    rw [List.pairwise_cons] at hpw
    obtain ⟨hx, hxs⟩ := hpw
    unfold pysorted
    refine insortKey_pairwise_lex key key' x (pysorted key xs) ?_ (ih hxs)
    intro y hy
    exact hx y ((pysorted_perm key xs).mem_iff.mp hy)

theorem pairwise_const_le {α : Type} :
    ∀ l : List α, l.Pairwise (fun _ _ => (0:Int) ≤ 0) := by
  intro l
  induction l with
  | nil => exact List.Pairwise.nil
  | cons x xs ih => exact List.pairwise_cons.mpr ⟨fun _ _ => le_refl 0, ih⟩

/-- Plain sortedness of `pysorted` (by key, non-strictly ascending). -/
theorem pysorted_pairwise {α : Type} (key : α → Int) (l : List α) :
    (pysorted key l).Pairwise (fun a b => key a ≤ key b) := by
  have := pysorted_pairwise_lex key (fun _ => (0:Int)) l (pairwise_const_le l)
  exact this.imp (fun h => by rcases h with h | ⟨h, _⟩ <;> omega)

/-! ### Culberson's Lemma 4.1 for class-respecting orders -/

/-- Strict lexicographic comparison of the sort keys attached to two colors:
primary an arbitrary color key `h`, secondary descending color (matching
the pre-sort by `-colors[node]`). -/
def pcLt (h : Nat → Int) (c d : Nat) : Prop :=
  h c < h d ∨ (h c = h d ∧ (d : Int) < (c : Int))

instance (h : Nat → Int) (c d : Nat) : Decidable (pcLt h c d) :=
  inferInstanceAs (Decidable (h c < h d ∨ (h c = h d ∧ (d : Int) < (c : Int))))

theorem pcLt_trans (h : Nat → Int) (a b c : Nat)
    (h1 : pcLt h a b) (h2 : pcLt h b c) : pcLt h a c := by
  unfold pcLt at *
  rcases h1 with h1 | ⟨h1, h1'⟩ <;> rcases h2 with h2 | ⟨h2, h2'⟩
  · exact Or.inl (lt_trans h1 h2)
  · exact Or.inl (h2 ▸ h1)
  · exact Or.inl (h1 ▸ h2)
  · exact Or.inr ⟨h1.trans h2, by omega⟩

theorem pcLt_irrefl (h : Nat → Int) (a : Nat) : ¬ pcLt h a a := by
  unfold pcLt
  omega

/-- A rank function witnessing that an order lists the color classes of `f`
in blocks: ranks are bounded by `k` and strictly increase along the order
whenever the color changes. -/
def LayerWitness (f : Nat → Nat) (k : Nat) (r : Nat → Nat) (ord : List Nat) :
    Prop :=
  ord.Pairwise (fun u v => f u ≠ f v → r u < r v) ∧ (∀ u ∈ ord, r u ≤ k)

/-- Construct a layer witness from lexicographic sortedness of the order by
a color-determined key (with descending color as secondary key): rank a node
by how many of the `k + 1` possible colors have a strictly smaller key
pair. -/
theorem layer_witness_construct (h : Nat → Int) (f : Nat → Nat) (k : Nat)
    (ord : List Nat) (hfk : ∀ u ∈ ord, f u ≤ k)
    (hpw : ord.Pairwise (fun u v => f u ≠ f v → pcLt h (f u) (f v))) :
    ∃ r, LayerWitness f k r ord := by
  refine ⟨fun u => ((Finset.range (k+1)).filter (fun c => pcLt h c (f u))).card,
    ?_, ?_⟩
  · refine hpw.imp_of_mem ?_
    intro a b ha hb hr hne
    have hlt := hr hne
    have hsub : (Finset.range (k+1)).filter (fun c => pcLt h c (f a)) ⊆
        (Finset.range (k+1)).filter (fun c => pcLt h c (f b)) := by
      intro c hc
      rw [Finset.mem_filter] at *
      exact ⟨hc.1, pcLt_trans h c (f a) (f b) hc.2 hlt⟩
    refine Finset.card_lt_card ((Finset.ssubset_iff_of_subset hsub).mpr
      ⟨f a, ?_, ?_⟩)
    · rw [Finset.mem_filter, Finset.mem_range]
      exact ⟨by have := hfk a ha; omega, hlt⟩
    · rw [Finset.mem_filter]
      rintro ⟨_, habs⟩
      exact pcLt_irrefl h (f a) habs
  · intro u hu
    have hsub : (Finset.range (k+1)).filter (fun c => pcLt h c (f u)) ⊆
        (Finset.range (k+1)).erase (f u) := by
      intro c hc
      rw [Finset.mem_filter] at hc
      rw [Finset.mem_erase]
      exact ⟨fun heq => pcLt_irrefl h (f u) (heq ▸ hc.2), hc.1⟩
    calc ((Finset.range (k+1)).filter (fun c => pcLt h c (f u))).card
        ≤ ((Finset.range (k+1)).erase (f u)).card := Finset.card_le_card hsub
      _ = k := by
          rw [Finset.card_erase_of_mem
            (Finset.mem_range.mpr (by have := hfk u hu; omega)),
            Finset.card_range]
          omega

theorem pairwise_of_indexOf_lt {R : Nat → Nat → Prop} (l : List Nat)
    (hpw : l.Pairwise R) (a b : Nat) (ha : a ∈ l) (hb : b ∈ l)
    (hlt : l.indexOf a < l.indexOf b) : R a b := by
  have hal := List.indexOf_lt_length.mpr ha
  have hbl := List.indexOf_lt_length.mpr hb
  have hga : l[l.indexOf a] = a := List.indexOf_get hal
  have hgb : l[l.indexOf b] = b := List.indexOf_get hbl
  have := List.pairwise_iff_getElem.mp hpw (l.indexOf a) (l.indexOf b) hal hbl hlt
  rwa [hga, hgb] at this

/-- Culberson's Lemma 4.1, abstract form: recoloring greedily along an order
admitting a layer witness bounds every new color by the node's rank, hence
by `k`. -/
theorem greedy_bound_of_layer (g : Graph) (hg : ValidGraph g) (ord : List Nat)
    (hnd : ord.Nodup) (hrange : ∀ x ∈ ord, x < g.N)
    (hall : ∀ u, u < g.N → u ∈ ord)
    (f : Nat → Nat) (k : Nat) (r : Nat → Nat)
    (hproper : ∀ u, u < g.N → ∀ nb ∈ g.adj u, f nb ≠ f u)
    (hlw : LayerWitness f k r ord) :
    ∃ cs, greedy g ord = some cs ∧ cs.length = g.N ∧
      (∀ u, u < g.N → cs.getD u 0 < g.N) ∧
      (∀ u, u < g.N → ∀ nb ∈ g.adj u, cs.getD nb 0 ≠ cs.getD u 0) ∧
      (∀ u, u < g.N → cs.getD u 0 ≤ k) := by
  obtain ⟨cs, hgr, hlen, hcsN, hprop', hchar⟩ :=
    C2_greedy_coloring g ord hg hnd hrange hall
  refine ⟨cs, hgr, hlen, hcsN, hprop', ?_⟩
  have hkey : ∀ m u, u < g.N → ord.indexOf u = m → cs.getD u 0 ≤ r u := by
    intro m
    induction m using Nat.strong_induction_on with
    | _ m ih =>
      intro u hu hidx
      by_contra hgt
      push_neg at hgt
      obtain ⟨nb, hadj, hidxlt, hcsnb⟩ := (hchar u hu).2 (r u) hgt
      have hnbN : nb < g.N := hg.1 u hu nb hadj
      have hnb_le : cs.getD nb 0 ≤ r nb :=
        ih (ord.indexOf nb) (hidx ▸ hidxlt) nb hnbN rfl
      have hfne : f nb ≠ f u := hproper u hu nb hadj
      have hrlt : r nb < r u :=
        pairwise_of_indexOf_lt ord hlw.1 nb u (hall nb hnbN) (hall u hu)
          hidxlt hfne
      omega
  intro u hu
  exact le_trans (hkey (ord.indexOf u) u hu rfl) (hlw.2 u (hall u hu))

/-! ### Iterated greedy (`welsh_powell`, `iterated_greedy`) -/

/-- The Welsh–Powell order: nodes sorted descending by degree
(`sorted(graph, key=lambda node: -sum(1 for neighbor in graph[node]))`). -/
def wpOrder (g : Graph) : List Nat :=
  pysorted (fun node => -((g.adj node).length : Int)) (List.range g.N)

/-- `welsh_powell(graph)` from `src/coloring/mip.py`. -/
def welsh_powell (g : Graph) : Option (List Nat) :=
  greedy g (wpOrder g)

/-- `preorder = sorted(graph, key=lambda node: -colors[node])`. -/
def igPreorder (g : Graph) (colors : List Nat) : List Nat :=
  pysorted (fun node => -((colors.getD node 0 : Int))) (List.range g.N)

/-- The order built by one `iterated_greedy` iteration: the reverse heuristic
(`iterations ≡ 0 mod 3`), the largest-first heuristic (`≡ 1`, stable re-sort
of the preorder by descending color-class size), or the random-key shuffle
(`≡ 2`, stable re-sort by `random[colors[node]]`, where `rnd` models the
list `random` of values drawn by `randrange`). -/
def igOrder (g : Graph) (colors : List Nat) (iterations : Nat)
    (rnd : Nat → Nat) : List Nat :=
  if iterations % 3 = 0 then igPreorder g colors
  else if iterations % 3 = 1 then
    pysorted (fun node => -((colors.count (colors.getD node 0) : Int)))
      (igPreorder g colors)
  else
    pysorted (fun node => ((rnd (colors.getD node 0) : Int)))
      (igPreorder g colors)

/-- The loop state of `iterated_greedy`. -/
structure IGState where
  colors : List Nat
  k : Nat
  iterations : Nat
  stagnations : Nat
deriving DecidableEq

/-- One pass of `iterated_greedy`'s `while True` body: recolor along the
selected order, bump the iteration counter, then accept an improvement,
break (returning the current colors), or count a stagnation.  `none` models
an exception escaping the loop (greedy's `ValueError` or `max([])`, neither
reachable from a well-formed state). -/
def igStep (g : Graph) (rnd : Nat → Nat → Nat) (st : IGState) :
    Option (Sum IGState (List Nat)) :=
  match greedy g (igOrder g st.colors st.iterations (rnd st.iterations)) with
  | none => none
  | some next =>
    match next.max? with
    | none => none
    | some next_k =>
      if next_k < st.k then
        some (Sum.inl ⟨next, next_k, st.iterations + 1, 0⟩)
      else if st.stagnations = 1 ∨ st.iterations + 1 = 32 then
        some (Sum.inr st.colors)
      else
        some (Sum.inl ⟨st.colors, st.k, st.iterations + 1, st.stagnations + 1⟩)

/-- The `while True` loop of `iterated_greedy`, with fuel. -/
def igLoop (g : Graph) (rnd : Nat → Nat → Nat) :
    Nat → IGState → Option (List Nat)
  | 0, _ => none
  | fuel + 1, st =>
    match igStep g rnd st with
    | none => none
    | some (Sum.inr colors) => some colors
    | some (Sum.inl st') => igLoop g rnd fuel st'

/-- `iterated_greedy(graph)` from `src/coloring/mip.py`: start from the
Welsh–Powell coloring with `k = max(colors)`, `iterations = 1`,
`stagnations = 0`, and loop. -/
def iterated_greedy (g : Graph) (rnd : Nat → Nat → Nat) (fuel : Nat) :
    Option (List Nat) :=
  match welsh_powell g with
  | none => none
  | some colors =>
    match colors.max? with
    | none => none
    | some k => igLoop g rnd fuel ⟨colors, k, 1, 0⟩

/-- Iterating only the `continue` transitions of the loop, to speak about
the bound sequence `k` across iterations. -/
def igIter (g : Graph) (rnd : Nat → Nat → Nat) (st : IGState) :
    Nat → Option IGState
  | 0 => some st
  | m + 1 =>
    match igIter g rnd st m with
    | none => none
    | some s =>
      match igStep g rnd s with
      | some (Sum.inl s') => some s'
      | _ => none

/-- The state invariant of the `iterated_greedy` loop: `colors` is a proper
coloring of the graph with one entry per node and `k = max(colors)`. -/
def IGInv (g : Graph) (st : IGState) : Prop :=
  st.colors.length = g.N ∧ st.colors.max? = some st.k ∧
  (∀ u, u < g.N → ∀ nb ∈ g.adj u, st.colors.getD nb 0 ≠ st.colors.getD u 0)

theorem natList_max?_spec (l : List Nat) (m : Nat) (h : l.max? = some m) :
    m ∈ l ∧ ∀ b ∈ l, b ≤ m := by
  have h0 := @List.max?_eq_some_iff Nat m _ _ _ (fun a => Nat.le_refl a)
    (fun a b => max_choice a b) (fun a b c => max_le_iff) l
  exact h0.mp h

theorem natList_max?_of_pos (l : List Nat) (h : 0 < l.length) :
    ∃ m, l.max? = some m := by
  cases hm : l.max? with
  | none =>
    have := List.max?_eq_none_iff.mp hm
    rw [this] at h
    simp at h
  | some m => exact ⟨m, rfl⟩

theorem getD_mem_of_lt (l : List Nat) (u : Nat) (h : u < l.length) :
    l.getD u 0 ∈ l := by
  rw [List.getD_eq_getElem _ _ h]
  exact List.mem_iff_getElem.mpr ⟨u, h, rfl⟩

theorem getD_le_max (l : List Nat) (m u : Nat) (hm : l.max? = some m)
    (hu : u < l.length) : l.getD u 0 ≤ m :=
  (natList_max?_spec l m hm).2 _ (getD_mem_of_lt l u hu)

theorem mem_eq_getD (l : List Nat) (a : Nat) (h : a ∈ l) :
    ∃ u, u < l.length ∧ l.getD u 0 = a := by
  obtain ⟨i, hi, hget⟩ := List.mem_iff_getElem.mp h
  exact ⟨i, hi, by rw [List.getD_eq_getElem _ _ hi]; exact hget⟩

theorem igPreorder_perm (g : Graph) (colors : List Nat) :
    List.Perm (igPreorder g colors) (List.range g.N) :=
  pysorted_perm _ _

theorem igOrder_perm (g : Graph) (colors : List Nat) (iterations : Nat)
    (rnd : Nat → Nat) :
    List.Perm (igOrder g colors iterations rnd) (List.range g.N) := by
  unfold igOrder
  split
  · exact igPreorder_perm g colors
  split
  · exact List.Perm.trans (pysorted_perm _ _) (igPreorder_perm g colors)
  · exact List.Perm.trans (pysorted_perm _ _) (igPreorder_perm g colors)

theorem perm_range_facts (g : Graph) (ord : List Nat)
    (hperm : List.Perm ord (List.range g.N)) :
    ord.Nodup ∧ (∀ x ∈ ord, x < g.N) ∧ (∀ u, u < g.N → u ∈ ord) := by
  refine ⟨(List.nodup_range g.N).perm hperm.symm, fun x hx => ?_, fun u hu => ?_⟩
  · have := hperm.mem_iff.mp hx
    simpa using this
  · exact hperm.mem_iff.mpr (by simpa using hu)

/-- Each of the three iteration orders is sorted by a key that factors
through the current color, with descending color as the stability-induced
secondary key, and therefore carries a layer witness. -/
theorem igOrder_layer (g : Graph) (colors : List Nat) (k iterations : Nat)
    (rnd : Nat → Nat)
    (hk : ∀ u, u < g.N → colors.getD u 0 ≤ k) :
    ∃ r, LayerWitness (fun u => colors.getD u 0) k r
      (igOrder g colors iterations rnd) := by
  have hfk0 : ∀ (l : List Nat), List.Perm l (List.range g.N) →
      ∀ u ∈ l, colors.getD u 0 ≤ k := by
    intro l hp u hu
    exact hk u (by simpa using hp.mem_iff.mp hu)
  have hpre : (igPreorder g colors).Pairwise
      (fun a b => -((colors.getD a 0 : Int)) ≤ -((colors.getD b 0 : Int))) :=
    pysorted_pairwise _ _
  unfold igOrder
  split
  · refine layer_witness_construct (fun c => -(c : Int)) _ k _
      (hfk0 _ (igPreorder_perm g colors)) ?_
    refine hpre.imp ?_
    intro a b hab hne
    simp only at hab
    unfold pcLt
    simp only
    omega
  split
  · refine layer_witness_construct
      (fun c => -((colors.count c : Int))) _ k _
      (hfk0 _ ((pysorted_perm _ _).trans (igPreorder_perm g colors))) ?_
    have hlex := pysorted_pairwise_lex
      (fun node => -((colors.count (colors.getD node 0) : Int)))
      (fun node => -((colors.getD node 0 : Int)))
      (igPreorder g colors) hpre
    refine hlex.imp ?_
    intro a b hab hne
    simp only at hab
    rcases hab with hab | ⟨hab, hab2⟩
    · exact Or.inl hab
    · exact Or.inr ⟨hab, by omega⟩
  · refine layer_witness_construct
      (fun c => ((rnd c : Int))) _ k _
      (hfk0 _ ((pysorted_perm _ _).trans (igPreorder_perm g colors))) ?_
    have hlex := pysorted_pairwise_lex
      (fun node => ((rnd (colors.getD node 0) : Int)))
      (fun node => -((colors.getD node 0 : Int)))
      (igPreorder g colors) hpre
    refine hlex.imp ?_
    intro a b hab hne
    simp only at hab
    rcases hab with hab | ⟨hab, hab2⟩
    · exact Or.inl hab
    · exact Or.inr ⟨hab, by omega⟩

/-- One pass of the loop, fully described: the recoloring succeeds, its new
bound `next_k` satisfies `next_k ≤ k` (Culberson's Lemma 4.1 — the Python
`assert` can never fire), and the step result is the improvement / break /
stagnation three-way decision on `next_k`. -/
theorem igStep_spec (g : Graph) (hg : ValidGraph g) (hN : 1 ≤ g.N)
    (rnd : Nat → Nat → Nat) (st : IGState) (hinv : IGInv g st) :
    ∃ next next_k,
      greedy g (igOrder g st.colors st.iterations (rnd st.iterations)) =
        some next ∧
      next.max? = some next_k ∧ next_k ≤ st.k ∧ next.length = g.N ∧
      (∀ u, u < g.N → ∀ nb ∈ g.adj u, next.getD nb 0 ≠ next.getD u 0) ∧
      igStep g rnd st =
        (if next_k < st.k then
          some (Sum.inl ⟨next, next_k, st.iterations + 1, 0⟩)
         else if st.stagnations = 1 ∨ st.iterations + 1 = 32 then
           some (Sum.inr st.colors)
         else
           some (Sum.inl ⟨st.colors, st.k, st.iterations + 1,
             st.stagnations + 1⟩)) := by
  obtain ⟨hlen, hmax, hproper⟩ := hinv
  have hk : ∀ u, u < g.N → st.colors.getD u 0 ≤ st.k := by
    intro u hu
    exact getD_le_max _ _ _ hmax (by omega)
  obtain ⟨r, hlw⟩ := igOrder_layer g st.colors st.k st.iterations
    (rnd st.iterations) hk
  obtain ⟨hnd, hrange, hall⟩ := perm_range_facts g _
    (igOrder_perm g st.colors st.iterations (rnd st.iterations))
  obtain ⟨cs, hgr, hcslen, hcsN, hcsproper, hcsbound⟩ :=
    greedy_bound_of_layer g hg _ hnd hrange hall _ st.k r
      (fun u hu nb hnb => hproper u hu nb hnb) hlw
  obtain ⟨nk, hnk⟩ := natList_max?_of_pos cs (by omega)
  have hnkk : nk ≤ st.k := by
    obtain ⟨hmem, _⟩ := natList_max?_spec cs nk hnk
    obtain ⟨u, hu, hgu⟩ := mem_eq_getD cs nk hmem
    rw [← hgu]
    exact hcsbound u (by omega)
  refine ⟨cs, nk, hgr, hnk, hnkk, hcslen, hcsproper, ?_⟩
  unfold igStep
  rw [hgr]
  simp only []
  rw [hnk]

/-- Invariant preservation and bookkeeping for a `continue` step. -/
theorem igStep_inl_facts (g : Graph) (hg : ValidGraph g) (hN : 1 ≤ g.N)
    (rnd : Nat → Nat → Nat) (st : IGState) (hinv : IGInv g st) (st' : IGState)
    (h : igStep g rnd st = some (Sum.inl st')) :
    IGInv g st' ∧ st'.iterations = st.iterations + 1 ∧
    ((st'.k < st.k ∧ st'.stagnations = 0) ∨
     (st'.k = st.k ∧ st'.colors = st.colors ∧
      st'.stagnations = st.stagnations + 1 ∧
      ¬(st.stagnations = 1 ∨ st.iterations + 1 = 32))) := by
  obtain ⟨next, next_k, hgr, hnk, hle, hlen, hprop, heq⟩ :=
    igStep_spec g hg hN rnd st hinv
  rw [heq] at h
  by_cases himp : next_k < st.k
  · rw [if_pos himp] at h
    have h' : Sum.inl (β := List Nat)
        (⟨next, next_k, st.iterations + 1, 0⟩ : IGState) = Sum.inl st' :=
      Option.some_inj.mp h
    have h'' := Sum.inl.inj h'
    rw [← h'']
    exact ⟨⟨hlen, hnk, hprop⟩, rfl, Or.inl ⟨himp, rfl⟩⟩
  · rw [if_neg himp] at h
    by_cases hbr : st.stagnations = 1 ∨ st.iterations + 1 = 32
    · rw [if_pos hbr] at h
      exact Sum.noConfusion (Option.some_inj.mp h)
    · rw [if_neg hbr] at h
      have h'' := Sum.inl.inj (Option.some_inj.mp h)
      rw [← h'']
      exact ⟨hinv, rfl, Or.inr ⟨rfl, rfl, rfl, hbr⟩⟩

/-- A `break` happens exactly at the guard of the source: a non-improving
pass together with a second consecutive stagnation or an iteration counter
that has just reached 32; the current (not the new) coloring is returned. -/
theorem igStep_inr_facts (g : Graph) (hg : ValidGraph g) (hN : 1 ≤ g.N)
    (rnd : Nat → Nat → Nat) (st : IGState) (hinv : IGInv g st) (cs : List Nat)
    (h : igStep g rnd st = some (Sum.inr cs)) :
    cs = st.colors ∧ (st.stagnations = 1 ∨ st.iterations + 1 = 32) ∧
    ∃ next, greedy g (igOrder g st.colors st.iterations (rnd st.iterations)) =
        some next ∧ next.max? = some st.k := by
  obtain ⟨next, next_k, hgr, hnk, hle, hlen, hprop, heq⟩ :=
    igStep_spec g hg hN rnd st hinv
  rw [heq] at h
  by_cases himp : next_k < st.k
  · rw [if_pos himp] at h
    exact Sum.noConfusion (Option.some_inj.mp h)
  · rw [if_neg himp] at h
    by_cases hbr : st.stagnations = 1 ∨ st.iterations + 1 = 32
    · rw [if_pos hbr] at h
      have h'' := Sum.inr.inj (Option.some_inj.mp h)
      have hkeq : next_k = st.k := by omega
      exact ⟨h''.symm, hbr, next, hgr, hkeq ▸ hnk⟩
    · rw [if_neg hbr] at h
      exact Sum.noConfusion (Option.some_inj.mp h)

/-- The loop terminates: `2k + 2` remaining passes always suffice (each pass
either lowers `k`, or flips the stagnation counter to 1, or breaks). -/
theorem igLoop_total (g : Graph) (hg : ValidGraph g) (hN : 1 ≤ g.N)
    (rnd : Nat → Nat → Nat) :
    ∀ (fuel : Nat) (st : IGState), IGInv g st → st.stagnations ≤ 1 →
      2 * st.k + 2 - st.stagnations ≤ fuel →
      ∃ cs, igLoop g rnd fuel st = some cs := by
  intro fuel
  induction fuel with
  | zero =>
    intro st _ hs hb
    omega
  | succ fuel ih =>
    intro st hinv hs hb
    obtain ⟨next, next_k, hgr, hnk, hle, hlen, hprop, heq⟩ :=
      igStep_spec g hg hN rnd st hinv
    have hloop : igLoop g rnd (fuel + 1) st =
        match igStep g rnd st with
        | none => none
        | some (Sum.inr colors) => some colors
        | some (Sum.inl st') => igLoop g rnd fuel st' := rfl
    by_cases himp : next_k < st.k
    · rw [hloop, heq, if_pos himp]
      simp only []
      exact ih ⟨next, next_k, st.iterations + 1, 0⟩ ⟨hlen, hnk, hprop⟩
        (by simp) (by simp only []; omega)
    · rw [hloop, heq, if_neg himp]
      by_cases hbr : st.stagnations = 1 ∨ st.iterations + 1 = 32
      · rw [if_pos hbr]
        exact ⟨st.colors, rfl⟩
      · rw [if_neg hbr]
        simp only []
        refine ih ⟨st.colors, st.k, st.iterations + 1, st.stagnations + 1⟩
          hinv ?_ ?_
        · simp only []
          omega
        · simp only []
          omega

/-- Every state reached by iterating `continue` steps keeps the invariant. -/
theorem igIter_inv (g : Graph) (hg : ValidGraph g) (hN : 1 ≤ g.N)
    (rnd : Nat → Nat → Nat) (st₀ : IGState) (hinv : IGInv g st₀) :
    ∀ m s, igIter g rnd st₀ m = some s → IGInv g s := by
  intro m
  induction m with
  | zero =>
    intro s h
    have : st₀ = s := Option.some_inj.mp h
    rw [← this]
    exact hinv
  | succ m ih =>
    intro s h
    unfold igIter at h
    cases hm : igIter g rnd st₀ m with
    | none => rw [hm] at h; exact Option.noConfusion h
    | some s₁ =>
      rw [hm] at h
      simp only [] at h
      cases hstep : igStep g rnd s₁ with
      | none => rw [hstep] at h; exact Option.noConfusion h
      | some v =>
        rw [hstep] at h
        cases v with
        | inr cs => simp only [] at h; exact Option.noConfusion h
        | inl s' =>
          simp only [] at h
          have hs' : s' = s := Option.some_inj.mp h
          rw [← hs']
          exact (igStep_inl_facts g hg hN rnd s₁ (ih s₁ hm) s' hstep).1

/-- From the Welsh–Powell start state, the whole of `iterated_greedy`
terminates within `2N + 3` passes. -/
theorem iterated_greedy_total (g : Graph) (hg : ValidGraph g) (hN : 1 ≤ g.N)
    (rnd : Nat → Nat → Nat) :
    ∃ cs, iterated_greedy g rnd (2 * g.N + 3) = some cs := by
  have hperm : List.Perm (wpOrder g) (List.range g.N) := pysorted_perm _ _
  obtain ⟨hnd, hrange, hall⟩ := perm_range_facts g _ hperm
  obtain ⟨cs, hgr, hlen, hcsN, hproper, _⟩ :=
    C2_greedy_coloring g (wpOrder g) hg hnd hrange hall
  obtain ⟨k₀, hk₀⟩ := natList_max?_of_pos cs (by omega)
  have hk₀N : k₀ < g.N := by
    obtain ⟨hmem, _⟩ := natList_max?_spec cs k₀ hk₀
    obtain ⟨u, hu, hgu⟩ := mem_eq_getD cs k₀ hmem
    rw [← hgu]
    exact hcsN u (by omega)
  obtain ⟨res, hres⟩ := igLoop_total g hg hN rnd (2 * g.N + 3)
    ⟨cs, k₀, 1, 0⟩ ⟨hlen, hk₀, hproper⟩ (by simp) (by simp only []; omega)
  refine ⟨res, ?_⟩
  unfold iterated_greedy welsh_powell
  rw [hgr]
  simp only []
  rw [hk₀]
  exact hres

/-- Claim C3: on every valid non-empty graph, from every loop state
satisfying the loop invariant (a proper length-N coloring with
`k = max(colors)`) and for every realization of the random keys, the greedy
recoloring along the cyclically selected ordering succeeds and its new bound
satisfies `next_k ≤ k` (Culberson's Lemma 4.1, so the fatal `assert` never
fires); consequently the bound sequence is non-increasing across the
iterations of the loop. -/
theorem C3_iterated_greedy_bound_monotone (g : Graph) (hg : ValidGraph g)
    (hN : 1 ≤ g.N) (rnd : Nat → Nat → Nat) :
    (∀ st, IGInv g st → ∃ next next_k,
      greedy g (igOrder g st.colors st.iterations (rnd st.iterations)) =
        some next ∧
      next.max? = some next_k ∧ next_k ≤ st.k) ∧
    (∀ st₀, IGInv g st₀ → ∀ m s s', igIter g rnd st₀ m = some s →
      igIter g rnd st₀ (m + 1) = some s' → s'.k ≤ s.k) := by
  constructor
  · intro st hinv
    obtain ⟨next, next_k, hgr, hnk, hle, _, _, _⟩ :=
      igStep_spec g hg hN rnd st hinv
    exact ⟨next, next_k, hgr, hnk, hle⟩
  · intro st₀ hinv m s s' hm hm1
    have hinv_s := igIter_inv g hg hN rnd st₀ hinv m s hm
    unfold igIter at hm1
    rw [hm] at hm1
    simp only [] at hm1
    cases hstep : igStep g rnd s with
    | none => rw [hstep] at hm1; exact Option.noConfusion hm1
    | some v =>
      rw [hstep] at hm1
      cases v with
      | inr cs => simp only [] at hm1; exact Option.noConfusion hm1
      | inl s'' =>
        simp only [] at hm1
        obtain rfl : s'' = s' := Option.some_inj.mp hm1
        obtain ⟨_, _, hcase⟩ := igStep_inl_facts g hg hN rnd s hinv_s s'' hstep
        rcases hcase with ⟨h, _⟩ | ⟨h, _⟩ <;> omega

/-- Claim C3, witness: the invariant state `([0,1,0,1], k = 1)` on the
4-cycle at iteration 1 — the recoloring's new bound stays ≤ 1. -/
theorem C3_iterated_greedy_bound_monotone_witness :
    ∃ next next_k,
      greedy ⟨4, fun u => if u = 0 then [1, 3] else if u = 1 then [0, 2]
          else if u = 2 then [1, 3] else if u = 3 then [2, 0] else []⟩
        (igOrder ⟨4, fun u => if u = 0 then [1, 3] else if u = 1 then [0, 2]
          else if u = 2 then [1, 3] else if u = 3 then [2, 0] else []⟩
          [0, 1, 0, 1] 1 (fun _ => 0)) = some next ∧
      next.max? = some next_k ∧ next_k ≤ 1 :=
  (C3_iterated_greedy_bound_monotone
    ⟨4, fun u => if u = 0 then [1, 3] else if u = 1 then [0, 2]
      else if u = 2 then [1, 3] else if u = 3 then [2, 0] else []⟩
    (by refine ⟨?_, ?_, ?_⟩ <;> decide) (by decide) (fun _ _ => 0)).1
    ⟨[0, 1, 0, 1], 1, 1, 0⟩ (by refine ⟨?_, ?_, ?_⟩ <;> decide)

/-- Claim C4: on every valid non-empty graph and for every realization of
the random keys, iterated greedy terminates (2N + 3 passes of fuel always
suffice), it exits exactly upon a non-improving pass that is either the
second consecutive non-improving iteration (`stagnations = 1`) or that
raises the iteration counter to 32 — returning the best coloring found —
and an improving pass resets the stagnation counter to 0 and continues,
while a first non-improving pass merely increments it. -/
theorem C4_iterated_greedy_termination (g : Graph) (hg : ValidGraph g)
    (hN : 1 ≤ g.N) (rnd : Nat → Nat → Nat) :
    (∃ cs, iterated_greedy g rnd (2 * g.N + 3) = some cs) ∧
    (∀ st, IGInv g st → ∀ cs, igStep g rnd st = some (Sum.inr cs) →
      cs = st.colors ∧ (st.stagnations = 1 ∨ st.iterations + 1 = 32)) ∧
    (∀ st, IGInv g st → ∀ st', igStep g rnd st = some (Sum.inl st') →
      (st'.k < st.k → st'.stagnations = 0) ∧
      (¬ st'.k < st.k → st'.stagnations = st.stagnations + 1 ∧
        ¬(st.stagnations = 1 ∨ st.iterations + 1 = 32))) := by
  refine ⟨iterated_greedy_total g hg hN rnd, ?_, ?_⟩
  · intro st hinv cs h
    obtain ⟨h1, h2, _⟩ := igStep_inr_facts g hg hN rnd st hinv cs h
    exact ⟨h1, h2⟩
  · intro st hinv st' h
    obtain ⟨_, _, hcase⟩ := igStep_inl_facts g hg hN rnd st hinv st' h
    constructor
    · intro himp
      rcases hcase with ⟨_, h0⟩ | ⟨heq, _⟩
      · exact h0
      · omega
    · intro hnimp
      rcases hcase with ⟨hlt, _⟩ | ⟨_, _, hs, hbr⟩
      · exact absurd hlt hnimp
      · exact ⟨hs, hbr⟩

/-- Claim C4, witness: iterated greedy terminates on the 4-cycle. -/
theorem C4_iterated_greedy_termination_witness :
    ∃ cs, iterated_greedy
      ⟨4, fun u => if u = 0 then [1, 3] else if u = 1 then [0, 2]
        else if u = 2 then [1, 3] else if u = 3 then [2, 0] else []⟩
      (fun _ _ => 0) (2 * 4 + 3) = some cs :=
  (C4_iterated_greedy_termination
    ⟨4, fun u => if u = 0 then [1, 3] else if u = 1 then [0, 2]
      else if u = 2 then [1, 3] else if u = 3 then [2, 0] else []⟩
    (by refine ⟨?_, ?_, ?_⟩ <;> decide) (by decide) (fun _ _ => 0)).1

end Discopt
